/-
  Verification of the Athkariapp data-migration scripts.

  Shallow embedding of the text-alignment (compare_api.py, via difflib's
  SequenceMatcher), reclassification (convert_adhkar.py, sync_official_data.py)
  and duplicate-reconciliation (smart_deduplicate.py) logic, together with
  theorems settling the specification claims.

  Python strings are modelled as `String`/`List Char` (Python indexes and
  slices by code points, which matches `String.data`).  Python ints are `Int`
  (or `Nat` for indices), floats produced by `SequenceMatcher.ratio` are exact
  rationals `ℚ`: every ratio is 2*M/T with T ≤ 400 here, and such rationals
  are separated from the thresholds 0.85 and 0.5 by far more than any double
  rounding error, so exact comparison agrees with Python's float comparison.
-/
import Mathlib

namespace Athkari

/-! ### Python string helpers -/

/-- Whitespace as recognised by Python's `str.split()` / `str.strip()`
(ASCII fragment; the corpora use plain spaces). -/
def pyIsSpace (c : Char) : Bool :=
  c = ' ' || c = '\t' || c = '\n' || c = '\x0d' || c = '\x0b' || c = '\x0c'

/-- The decorative marker glyph `۝` (U+06DD) stripped by `clean_text`. -/
def markerChar : Char := '۝'

/-- `text.replace('۝', '')`: replacing a single character by the empty string
deletes every occurrence. -/
def removeMarker (l : List Char) : List Char :=
  l.filter (fun c => c ≠ markerChar)

/-- Worker for `words`: `acc` holds the current word reversed. -/
def wordsAux : List Char → List Char → List (List Char)
  | [], acc => if acc = [] then [] else [acc.reverse]
  | c :: cs, acc =>
      if pyIsSpace c then
        if acc = [] then wordsAux cs [] else acc.reverse :: wordsAux cs []
      else wordsAux cs (c :: acc)

/-- Python `str.split()` with no argument: split on whitespace runs,
dropping empty fields. -/
def words (l : List Char) : List (List Char) :=
  wordsAux l []

/-- Python `" ".join(ws)`. -/
def joinWords (ws : List (List Char)) : List Char :=
  List.intercalate [' '] ws

/-- Python `str.strip()` (whitespace from both ends). -/
def pyStrip (l : List Char) : List Char :=
  ((l.dropWhile pyIsSpace).reverse.dropWhile pyIsSpace).reverse

/-- `clean_text` from compare_api.py / sync_official_data.py:
`" ".join(text.replace('۝', '').split()).strip()`. -/
def cleanList (l : List Char) : List Char :=
  pyStrip (joinWords (words (removeMarker l)))

/-- `clean_text` on `String`s. -/
def cleanS (s : String) : String :=
  ⟨cleanList s.data⟩

/-! ### difflib.SequenceMatcher (CPython) model, `isjunk = None`

`similar(a, b)` in compare_api.py is `SequenceMatcher(None, a, b).ratio()`.
With `isjunk = None` the junk set `bjunk` is empty, so the two junk-extension
loops of `find_longest_match` never run and `not isbjunk(...)` is always true;
only the autojunk "popular" filter on `b2j` remains.  `ratio` is
`2 * (sum of matching-block sizes) / (len(a) + len(b))` (the merge step in
`get_matching_blocks` does not change the sum), and `1.0` for two empty
strings. -/

/-- Ascending occurrence positions of `c` in `l`, offset by `k`. -/
def positionsFrom : List Char → Char → ℕ → List ℕ
  | [], _, _ => []
  | x :: xs, c, k =>
      if x = c then k :: positionsFrom xs c (k + 1) else positionsFrom xs c (k + 1)

/-- `b2j[c]` before the autojunk deletion: all occurrence indices of `c`,
ascending (built by `__chain_b`'s enumeration loop). -/
def positions (l : List Char) (c : Char) : List ℕ := positionsFrom l c 0

/-- Autojunk popularity: for `len(b) >= 200`, elements occurring more than
`len(b) // 100 + 1` times are deleted from `b2j`. -/
def popB (b : List Char) (c : Char) : Bool :=
  decide (200 ≤ b.length) && decide (b.length / 100 + 1 < b.count c)

/-- `b2j` after autojunk. -/
def b2j (b : List Char) (c : Char) : List ℕ :=
  if popB b c then [] else positions b c

/-- `j2len.get(j-1, 0) + 1` (for `j = 0` Python reads `j2len.get(-1, 0) = 0`).
`prev` is the previous row's `j2len`, as an update list (most recent first). -/
def kval (prev : List (ℕ × ℕ)) (j : ℕ) : ℕ :=
  (match j with
    | 0 => 0
    | Nat.succ j' => (prev.lookup j').getD 0) + 1

/-- Inner-loop body of `find_longest_match` at outer index `i`, position `j`:
`k = newj2len[j] = j2len.get(j-1, 0) + 1; if k > bestsize: best = (i-k+1, j-k+1, k)`.
The dict assignment is modelled by prepending (most recent binding wins). -/
def stepRow (i : ℕ) (prev : List (ℕ × ℕ))
    (st : List (ℕ × ℕ) × (ℕ × ℕ × ℕ)) (j : ℕ) : List (ℕ × ℕ) × (ℕ × ℕ × ℕ) :=
  let k := kval prev j
  ((j, k) :: st.1, if st.2.2.2 < k then (i + 1 - k, j + 1 - k, k) else st.2)

/-- One outer-loop iteration: run over `b2j[a[i]]`; the `continue`/`break`
guards on the ascending position list amount to keeping `blo ≤ j < bhi`. -/
def flmRow (a b : List Char) (blo bhi : ℕ) (i : ℕ)
    (st : List (ℕ × ℕ) × (ℕ × ℕ × ℕ)) : List (ℕ × ℕ) × (ℕ × ℕ × ℕ) :=
  let js := (b2j b (a.getD i ' ')).filter (fun j => decide (blo ≤ j ∧ j < bhi))
  js.foldl (stepRow i st.1) ([], st.2)

/-- Backward match extension (`while besti > alo and bestj > blo and
a[besti-1] == b[bestj-1]`); the `isbjunk` test is vacuous.  Each iteration
decrements `besti`, so the loop runs at most `besti` times: `fuel = besti`
is always enough. -/
def extendBackF (a b : List Char) (alo blo : ℕ) : ℕ → ℕ × ℕ × ℕ → ℕ × ℕ × ℕ
  | 0, t => t
  | fuel + 1, (besti, bestj, bestsize) =>
    if alo < besti ∧ blo < bestj ∧
        a.getD (besti - 1) ' ' = b.getD (bestj - 1) ' ' then
      extendBackF a b alo blo fuel (besti - 1, bestj - 1, bestsize + 1)
    else (besti, bestj, bestsize)

/-- `extendBack` with its sufficient fuel. -/
def extendBack (a b : List Char) (alo blo : ℕ) (t : ℕ × ℕ × ℕ) : ℕ × ℕ × ℕ :=
  extendBackF a b alo blo t.1 t

/-- Forward match extension (`while besti+bestsize < ahi and
bestj+bestsize < bhi and a[besti+bestsize] == b[bestj+bestsize]`).  Each
iteration increments `bestsize` while `besti + bestsize < ahi`, so the loop
runs at most `ahi` times: `fuel = ahi` is always enough. -/
def extendFwdF (a b : List Char) (ahi bhi : ℕ) : ℕ → ℕ × ℕ × ℕ → ℕ × ℕ × ℕ
  | 0, t => t
  | fuel + 1, (besti, bestj, bestsize) =>
    if besti + bestsize < ahi ∧ bestj + bestsize < bhi ∧
        a.getD (besti + bestsize) ' ' = b.getD (bestj + bestsize) ' ' then
      extendFwdF a b ahi bhi fuel (besti, bestj, bestsize + 1)
    else (besti, bestj, bestsize)

/-- `extendFwd` with its sufficient fuel. -/
def extendFwd (a b : List Char) (ahi bhi : ℕ) (t : ℕ × ℕ × ℕ) : ℕ × ℕ × ℕ :=
  extendFwdF a b ahi bhi ahi t

/-- `find_longest_match(alo, ahi, blo, bhi)` with `isjunk = None`:
the dynamic programme over rows `alo ≤ i < ahi`, then the two (non-junk)
extension loops. -/
def findLongestMatch (a b : List Char) (alo ahi blo bhi : ℕ) : ℕ × ℕ × ℕ :=
  let st := (List.range' alo (ahi - alo)).foldl
    (fun st i => flmRow a b blo bhi i st) ([], (alo, blo, 0))
  extendFwd a b ahi bhi (extendBack a b alo blo st.2)

/-- Sum of matching-block sizes over `get_matching_blocks`'s recursion
(`fuel` dominates the recursion depth for every real run). -/
def matchingSum (a b : List Char) : ℕ → ℕ → ℕ → ℕ → ℕ → ℕ
  | 0, _, _, _, _ => 0
  | fuel + 1, alo, ahi, blo, bhi =>
    let m := findLongestMatch a b alo ahi blo bhi
    if m.2.2 = 0 then 0
    else
      (if alo < m.1 ∧ blo < m.2.1 then matchingSum a b fuel alo m.1 blo m.2.1 else 0)
      + m.2.2 +
      (if m.1 + m.2.2 < ahi ∧ m.2.1 + m.2.2 < bhi then
        matchingSum a b fuel (m.1 + m.2.2) ahi (m.2.1 + m.2.2) bhi else 0)

/-- `SequenceMatcher(None, a, b).ratio()`. -/
def ratio (a b : List Char) : ℚ :=
  let total := a.length + b.length
  if total = 0 then 1
  else 2 * (matchingSum a b (total + 1) 0 a.length 0 b.length : ℚ) / (total : ℚ)

/-- `similar(a, b)` from compare_api.py. -/
def similar (a b : List Char) : ℚ := ratio a b

/-- Contiguous-sublist test: does `sub` occur in `l`? -/
def isInfixL (sub : List Char) : List Char → Bool
  | [] => sub.isPrefixOf []
  | c :: cs => sub.isPrefixOf (c :: cs) || isInfixL sub cs

/-- Python substring test `sub in hay`. -/
def containsSub (hay sub : String) : Bool :=
  isInfixL sub.data hay.data

/-! ### `ratio` is 1 on identical strings

On `SequenceMatcher(None, s, s)` the DP's running best is always a diagonal
block `(p, p, k)`: any candidate chain ending at `(i, j)` is dominated by the
diagonal run of non-popular characters ending at `i` (and at `j`), which the
best has already absorbed.  The two extension loops then stretch a diagonal
best to the whole string, so `find_longest_match` returns `(0, 0, n)` and
`ratio` is `2n / 2n = 1` — popular ("autojunk") characters notwithstanding. -/

/-- Length of the maximal run of non-popular characters of `s` ending at
index `j` (0 if `s[j]` itself is popular). -/
def runLen (s : List Char) : ℕ → ℕ
  | 0 => if popB s (s.getD 0 ' ') then 0 else 1
  | j + 1 => if popB s (s.getD (j + 1) ' ') then 0 else runLen s j + 1

theorem runLen_pos {s : List Char} {j : ℕ} (h : popB s (s.getD j ' ') = false) :
    1 ≤ runLen s j := by
  cases j <;> · simp only [runLen]; rw [h]; simp; try omega

theorem runLen_zero {s : List Char} {j : ℕ} (h : popB s (s.getD j ' ') = true) :
    runLen s j = 0 := by
  cases j <;> · simp only [runLen]; rw [h]; simp

theorem runLen_succ {s : List Char} {j : ℕ}
    (h : popB s (s.getD (j + 1) ' ') = false) :
    runLen s (j + 1) = runLen s j + 1 := by
  simp only [runLen]; rw [h]; simp

theorem runLen_le {s : List Char} : ∀ j, runLen s j ≤ j + 1
  | 0 => by unfold runLen; split <;> omega
  | j + 1 => by
      unfold runLen; split
      · omega
      · have := runLen_le (s := s) j; omega

theorem mem_positionsFrom {c : Char} {j : ℕ} :
    ∀ {l : List Char} {k : ℕ}, j ∈ positionsFrom l c k ↔
      ∃ m, j = k + m ∧ m < l.length ∧ l.getD m ' ' = c := by
  intro l
  induction l with
  | nil => simp [positionsFrom]
  | cons x xs ih =>
      intro k
      by_cases hx : x = c
      · simp only [positionsFrom, if_pos hx, List.mem_cons, ih]
        constructor
        · rintro (rfl | ⟨m, rfl, hm, hg⟩)
          · exact ⟨0, by omega, by simp, by simpa using hx⟩
          · exact ⟨m + 1, by omega, by simp; omega, by simpa using hg⟩
        · rintro ⟨m, rfl, hm, hg⟩
          cases m with
          | zero => left; omega
          | succ m' =>
              right
              exact ⟨m', by omega, by simp at hm; omega, by simpa using hg⟩
      · simp only [positionsFrom, if_neg hx, ih]
        constructor
        · rintro ⟨m, rfl, hm, hg⟩
          exact ⟨m + 1, by omega, by simp; omega, by simpa using hg⟩
        · rintro ⟨m, rfl, hm, hg⟩
          cases m with
          | zero => exact absurd (by simpa using hg) hx
          | succ m' =>
              exact ⟨m', by omega, by simp at hm; omega, by simpa using hg⟩

theorem mem_positions {s : List Char} {c : Char} {j : ℕ} :
    j ∈ positions s c ↔ j < s.length ∧ s.getD j ' ' = c := by
  unfold positions
  rw [mem_positionsFrom]
  constructor
  · rintro ⟨m, rfl, hm, hg⟩
    refine ⟨by simpa using hm, ?_⟩
    simpa using hg
  · rintro ⟨hj, hg⟩; exact ⟨j, by omega, hj, hg⟩

theorem positionsFrom_ge {c : Char} {j : ℕ} {l : List Char} {k : ℕ}
    (h : j ∈ positionsFrom l c k) : k ≤ j := by
  obtain ⟨m, rfl, -, -⟩ := mem_positionsFrom.mp h; omega

theorem positionsFrom_sorted {c : Char} :
    ∀ (l : List Char) (k : ℕ), (positionsFrom l c k).Pairwise (· < ·)
  | [], _ => by simp [positionsFrom]
  | x :: xs, k => by
      by_cases hx : x = c
      · simp only [positionsFrom, if_pos hx]
        refine List.pairwise_cons.mpr ⟨?_, positionsFrom_sorted xs (k + 1)⟩
        intro j hj
        have := positionsFrom_ge hj; omega
      · simp only [positionsFrom, if_neg hx]
        exact positionsFrom_sorted xs (k + 1)

theorem positions_sorted {s : List Char} {c : Char} :
    (positions s c).Pairwise (· < ·) :=
  positionsFrom_sorted s 0

theorem lookup_eq_some_mem {β : Type} {l : List (ℕ × β)} {j : ℕ} {v : β}
    (h : l.lookup j = some v) : (j, v) ∈ l := by
  induction l with
  | nil => simp [List.lookup] at h
  | cons p l ih =>
      obtain ⟨k, b⟩ := p
      by_cases hk : j = k
      · subst hk
        simp only [List.lookup_cons, beq_self_eq_true] at h
        cases h
        exact List.mem_cons_self _ _
      · simp only [List.lookup_cons, beq_false_of_ne hk] at h
        exact List.mem_cons_of_mem _ (ih h)

theorem lookup_append_right {β : Type} {l₁ l₂ : List (ℕ × β)} {j : ℕ}
    (h : ∀ p ∈ l₁, p.1 ≠ j) : (l₁ ++ l₂).lookup j = l₂.lookup j := by
  induction l₁ with
  | nil => simp
  | cons p l ih =>
      obtain ⟨k, b⟩ := p
      have hk : j ≠ k := fun hjk => h (k, b) (List.mem_cons_self _ _) (by simp [hjk])
      rw [List.cons_append]
      simp only [List.lookup_cons, beq_false_of_ne hk]
      exact ih fun p hp => h p (List.mem_cons_of_mem _ hp)

/-- Loop invariant for `find_longest_match(0, n, 0, n)` on `(s, s)`, after the
rows `< i` have been processed: the previous row's `j2len` values are bounded
by the non-popular run ending at their key and at the previous row index, the
diagonal entry is present, and the best block is a diagonal dominating every
diagonal run seen so far. -/
def StInv (s : List Char) (i : ℕ) (st : List (ℕ × ℕ) × (ℕ × ℕ × ℕ)) : Prop :=
  (∀ j v, st.1.lookup j = some v →
      v ≤ runLen s j ∧ (∃ r, r + 1 = i ∧ v ≤ runLen s r) ∧
        popB s (s.getD j ' ') = false)
  ∧ (∀ j, j + 1 = i → popB s (s.getD j ' ') = false →
      st.1.lookup j = some (runLen s j))
  ∧ st.2.1 = st.2.2.1
  ∧ (∀ r, r < i → runLen s r ≤ st.2.2.2)
  ∧ st.2.1 + st.2.2.2 ≤ i

theorem kval_le {s : List Char} {i : ℕ} {prev : List (ℕ × ℕ)}
    (h1 : ∀ j v, prev.lookup j = some v →
      v ≤ runLen s j ∧ (∃ r, r + 1 = i ∧ v ≤ runLen s r) ∧
        popB s (s.getD j ' ') = false)
    {j : ℕ} (hj : s.getD j ' ' = s.getD i ' ')
    (hci : popB s (s.getD i ' ') = false) :
    kval prev j ≤ runLen s j ∧ kval prev j ≤ runLen s i := by
  have hcj : popB s (s.getD j ' ') = false := by rw [hj]; exact hci
  cases j with
  | zero => exact ⟨runLen_pos hcj, runLen_pos hci⟩
  | succ j' =>
      have hkv : kval prev (j' + 1) = (prev.lookup j').getD 0 + 1 := rfl
      cases hl : prev.lookup j' with
      | none =>
          rw [hkv, hl]
          exact ⟨runLen_pos hcj, runLen_pos hci⟩
      | some v =>
          obtain ⟨hvj, ⟨r, hr, hvr⟩, -⟩ := h1 j' v hl
          rw [hkv, hl]
          constructor
          · rw [runLen_succ hcj]; simpa using hvj
          · subst hr; rw [runLen_succ hci]; simpa using hvr

theorem kval_diag {s : List Char} {i : ℕ} {prev : List (ℕ × ℕ)}
    (h1 : ∀ j v, prev.lookup j = some v →
      v ≤ runLen s j ∧ (∃ r, r + 1 = i ∧ v ≤ runLen s r) ∧
        popB s (s.getD j ' ') = false)
    (h2 : ∀ j, j + 1 = i → popB s (s.getD j ' ') = false →
      prev.lookup j = some (runLen s j))
    (hci : popB s (s.getD i ' ') = false) :
    kval prev i = runLen s i := by
  cases i with
  | zero =>
      have h0 : runLen s 0 = 1 := by simp only [runLen]; rw [hci]; simp
      rw [h0]; rfl
  | succ i' =>
      have hkv : kval prev (i' + 1) = (prev.lookup i').getD 0 + 1 := rfl
      rw [runLen_succ hci, hkv]
      cases hp : popB s (s.getD i' ' ') with
      | false => rw [h2 i' rfl hp]; rfl
      | true =>
          have hnone : prev.lookup i' = none := by
            cases hl : prev.lookup i' with
            | none => rfl
            | some v =>
                obtain ⟨-, -, hpf⟩ := h1 i' v hl
                rw [hpf] at hp; cases hp
          rw [hnone, runLen_zero hp]
          rfl

theorem foldl_stepRow_no_fire {i : ℕ} {prev : List (ℕ × ℕ)} :
    ∀ (L : List ℕ) (acc : List (ℕ × ℕ)) (best : ℕ × ℕ × ℕ),
    (∀ j ∈ L, kval prev j ≤ best.2.2) →
    L.foldl (stepRow i prev) (acc, best)
      = ((L.map (fun j => (j, kval prev j))).reverse ++ acc, best)
  | [], acc, best, _ => by simp
  | j :: L, acc, best, h => by
      have hj : kval prev j ≤ best.2.2 := h j (List.mem_cons_self _ _)
      have hstep : stepRow i prev (acc, best) j = ((j, kval prev j) :: acc, best) := by
        simp [stepRow, Nat.not_lt.mpr hj]
      rw [List.foldl_cons, hstep,
        foldl_stepRow_no_fire L _ best (fun x hx => h x (List.mem_cons_of_mem _ hx))]
      simp

theorem flmRow_inv {s : List Char} {i : ℕ} {st : List (ℕ × ℕ) × (ℕ × ℕ × ℕ)}
    (hi : i < s.length) (hInv : StInv s i st) :
    StInv s (i + 1) (flmRow s s 0 s.length i st) := by
  obtain ⟨h1, h2, h3, h4, h5⟩ := hInv
  by_cases hcp : popB s (s.getD i ' ') = true
  · -- popular row: `b2j` is empty, the state becomes `([], st.2)`
    have hb : b2j s (s.getD i ' ') = [] := by rw [b2j, if_pos hcp]
    have hrow : flmRow s s 0 s.length i st = ([], st.2) := by
      simp only [flmRow, hb, List.filter_nil, List.foldl_nil]
    rw [hrow]
    refine ⟨?_, ?_, h3, ?_, ?_⟩
    · intro j v h; simp [List.lookup] at h
    · intro j hj hpf
      have hji : j = i := by omega
      subst hji; rw [hcp] at hpf; cases hpf
    · intro r hr
      rcases Nat.lt_succ_iff_lt_or_eq.mp hr with h | h
      · exact h4 r h
      · subst h; rw [runLen_zero hcp]; omega
    · exact Nat.le_succ_of_le h5
  · replace hcp : popB s (s.getD i ' ') = false := by simpa using hcp
    have hjs : (b2j s (s.getD i ' ')).filter
        (fun j => decide (0 ≤ j ∧ j < s.length)) = positions s (s.getD i ' ') := by
      rw [b2j, if_neg (by simp only [hcp]; simp)]
      apply List.filter_eq_self.mpr
      intro j hj
      have := (mem_positions.mp hj).1
      simp [this]
    have himem : i ∈ positions s (s.getD i ' ') := mem_positions.mpr ⟨hi, rfl⟩
    obtain ⟨L₁, L₂, hsplit⟩ := List.append_of_mem himem
    have hsorted := positions_sorted (s := s) (c := s.getD i ' ')
    rw [hsplit, List.pairwise_append] at hsorted
    obtain ⟨hp₁, hp₂, hcross⟩ := hsorted
    have hL₁lt : ∀ j ∈ L₁, j < i := fun j hj => hcross j hj i (List.mem_cons_self _ _)
    have hL₂gt : ∀ j ∈ L₂, i < j := (List.pairwise_cons.mp hp₂).1
    have hkb : ∀ j ∈ positions s (s.getD i ' '),
        kval st.1 j ≤ runLen s j ∧ kval st.1 j ≤ runLen s i :=
      fun j hj => kval_le h1 (mem_positions.mp hj).2 hcp
    have hkd : kval st.1 i = runLen s i := kval_diag h1 h2 hcp
    have hrow : flmRow s s 0 s.length i st
        = (positions s (s.getD i ' ')).foldl (stepRow i st.1) ([], st.2) := by
      simp only [flmRow]; rw [hjs]
    rw [hrow, hsplit, List.foldl_append]
    have hfire₁ : ∀ j ∈ L₁, kval st.1 j ≤ st.2.2.2 := by
      intro j hj
      have hjmem : j ∈ positions s (s.getD i ' ') := by
        rw [hsplit]; exact List.mem_append_left _ hj
      exact le_trans (hkb j hjmem).1 (h4 j (hL₁lt j hj))
    rw [foldl_stepRow_no_fire L₁ [] st.2 hfire₁, List.foldl_cons]
    have hstep : stepRow i st.1
        ((L₁.map fun j => (j, kval st.1 j)).reverse ++ [], st.2) i
        = ((i, kval st.1 i) :: ((L₁.map fun j => (j, kval st.1 j)).reverse ++ []),
           if st.2.2.2 < kval st.1 i then
             (i + 1 - kval st.1 i, i + 1 - kval st.1 i, kval st.1 i) else st.2) := by
      simp [stepRow]
    rw [hstep]
    set B := (if st.2.2.2 < kval st.1 i then
        (i + 1 - kval st.1 i, i + 1 - kval st.1 i, kval st.1 i) else st.2) with hB
    have hBdiag : B.1 = B.2.1 := by
      rw [hB]; split
      · rfl
      · exact h3
    have hBdom : ∀ r, r < i + 1 → runLen s r ≤ B.2.2 := by
      intro r hr
      rcases Nat.lt_succ_iff_lt_or_eq.mp hr with h | h
      · rw [hB]; split
        · next hlt => exact le_trans (h4 r h) (le_of_lt hlt)
        · exact h4 r h
      · subst h; rw [hB]; split
        · rw [← hkd]
        · next hnlt => rw [← hkd]; exact Nat.not_lt.mp hnlt
    have hBsum : B.1 + B.2.2 ≤ i + 1 := by
      rw [hB]; split
      · have : kval st.1 i ≤ i + 1 := hkd ▸ runLen_le i
        simp; omega
      · omega
    have hfire₂ : ∀ j ∈ L₂, kval st.1 j ≤ B.2.2 := by
      intro j hj
      have hjmem : j ∈ positions s (s.getD i ' ') := by
        rw [hsplit]
        exact List.mem_append_right _ (List.mem_cons_of_mem _ hj)
      exact le_trans (hkb j hjmem).2 (hBdom i (Nat.lt_succ_self i))
    rw [foldl_stepRow_no_fire L₂ _ B hfire₂]
    refine ⟨?_, ?_, hBdiag, hBdom, hBsum⟩
    · intro j v hl
      have hmem := lookup_eq_some_mem hl
      have hform : ∃ x ∈ positions s (s.getD i ' '), (j, v) = (x, kval st.1 x) := by
        simp only [List.mem_append, List.mem_reverse, List.mem_map, List.mem_cons,
          List.append_nil] at hmem
        rcases hmem with ⟨x, hx, he⟩ | he | ⟨x, hx, he⟩
        · refine ⟨x, ?_, he.symm⟩
          rw [hsplit]
          exact List.mem_append_right _ (List.mem_cons_of_mem _ hx)
        · exact ⟨i, himem, he⟩
        · refine ⟨x, ?_, he.symm⟩
          rw [hsplit]
          exact List.mem_append_left _ hx
      obtain ⟨x, hx, hxe⟩ := hform
      obtain ⟨rfl, rfl⟩ : j = x ∧ v = kval st.1 x :=
        ⟨congrArg Prod.fst hxe, congrArg Prod.snd hxe⟩
      refine ⟨(hkb j hx).1, ⟨i, rfl, (hkb j hx).2⟩, ?_⟩
      rw [(mem_positions.mp hx).2]; exact hcp
    · intro j hj hpf
      have hji : j = i := by omega
      subst hji
      rw [lookup_append_right]
      · rw [List.append_nil]
        simp only [List.lookup_cons, beq_self_eq_true]
        rw [hkd]
      · intro p hp
        simp only [List.mem_reverse, List.mem_map] at hp
        obtain ⟨x, hx, rfl⟩ := hp
        exact Nat.ne_of_gt (hL₂gt x hx)

theorem rows_inv {s : List Char} :
    ∀ (m i : ℕ) (st : List (ℕ × ℕ) × (ℕ × ℕ × ℕ)), i + m = s.length → StInv s i st →
    StInv s s.length
      ((List.range' i m).foldl (fun st i => flmRow s s 0 s.length i st) st)
  | 0, i, st, him, hInv => by
      have : i = s.length := by omega
      subst this; simpa using hInv
  | m + 1, i, st, him, hInv => by
      rw [List.range'_succ, List.foldl_cons]
      exact rows_inv m (i + 1) _ (by omega) (flmRow_inv (by omega) hInv)

theorem extendBackF_diag (s : List Char) : ∀ (p bs : ℕ),
    extendBackF s s 0 0 p (p, p, bs) = (0, 0, bs + p)
  | 0, bs => rfl
  | p + 1, bs => by
      simp only [extendBackF]
      rw [if_pos ⟨Nat.succ_pos p, Nat.succ_pos p, trivial⟩]
      simp only [Nat.add_sub_cancel]
      have harith : bs + 1 + p = bs + (p + 1) := by omega
      rw [extendBackF_diag s p (bs + 1), harith]

theorem extendBack_diag (s : List Char) (p bs : ℕ) :
    extendBack s s 0 0 (p, p, bs) = (0, 0, bs + p) :=
  extendBackF_diag s p bs

theorem extendFwdF_diag (s : List Char) : ∀ (fuel m : ℕ),
    s.length - m ≤ fuel → m ≤ s.length →
    extendFwdF s s s.length s.length fuel (0, 0, m) = (0, 0, s.length)
  | 0, m, hf, hm => by
      have : m = s.length := by omega
      subst this; rfl
  | fuel + 1, m, hf, hm => by
      simp only [extendFwdF]
      rcases Nat.lt_or_ge m s.length with hlt | hge
      · rw [if_pos ⟨by omega, by omega, trivial⟩]
        exact extendFwdF_diag s fuel (m + 1) (by omega) (by omega)
      · have : m = s.length := by omega
        subst this
        rw [if_neg (by rintro ⟨h1', -, -⟩; omega)]

theorem extendFwd_diag (s : List Char) (m : ℕ) (hm : m ≤ s.length) :
    extendFwd s s s.length s.length (0, 0, m) = (0, 0, s.length) :=
  extendFwdF_diag s s.length m (by omega) hm

theorem flm_self (s : List Char) :
    findLongestMatch s s 0 s.length 0 s.length = (0, 0, s.length) := by
  have h0 : StInv s 0 ([], (0, 0, 0)) := by
    refine ⟨?_, ?_, rfl, ?_, by simp⟩
    · intro j v h; simp [List.lookup] at h
    · intro j hj; omega
    · intro r hr; omega
  have key : ∀ st : List (ℕ × ℕ) × (ℕ × ℕ × ℕ), StInv s s.length st →
      extendFwd s s s.length s.length (extendBack s s 0 0 st.2) = (0, 0, s.length) := by
    rintro ⟨acc, p, q, bs⟩ ⟨-, -, h3, -, h5⟩
    simp only at h3 h5
    subst h3
    rw [extendBack_diag s p bs]
    exact extendFwd_diag s (bs + p) (by omega)
  exact key _ (rows_inv s.length 0 ([], (0, 0, 0)) (by omega) h0)

/-- `SequenceMatcher.ratio()` is `1` whenever the two sides are equal —
including strings long enough for autojunk to empty `b2j`, thanks to the
extension loops. -/
theorem ratio_refl (s : List Char) : ratio s s = 1 := by
  unfold ratio
  rcases Nat.eq_zero_or_pos s.length with h0 | hpos
  · simp [h0]
  · have htot : ¬(s.length + s.length = 0) := by omega
    rw [if_neg htot]
    have hms : matchingSum s s (s.length + s.length + 1) 0 s.length 0 s.length
        = s.length := by
      have hne0 : s.length ≠ 0 := by omega
      rw [matchingSum]
      simp only [flm_self]
      simp [hne0]
    rw [hms, div_eq_one_iff_eq (by exact_mod_cast htot)]
    push_cast
    ring

/-! ### compare_api.py: repeat-count parsing and the matcher loop -/

/-- A JSON scalar as it can appear in a `REPEAT` field. -/
inductive PyVal
  | none
  | int (n : ℤ)
  | str (s : String)
deriving DecidableEq

/-- Python truthiness of such a value. -/
def pyTruthy : PyVal → Bool
  | .none => false
  | .int n => n != 0
  | .str s => s != ""

/-- Python `int(str)`: optional surrounding whitespace, optional sign, then
at least one ASCII digit (the fragment exercised by the corpora); `none`
when unparseable. -/
def pyIntOfString (s : String) : Option ℤ :=
  let t := pyStrip s.data
  let p : ℤ × List Char :=
    match t with
    | '-' :: rest => (-1, rest)
    | '+' :: rest => (1, rest)
    | _ => (1, t)
  if p.2 ≠ [] ∧ p.2.all (·.isDigit) then
    some (p.1 * ((p.2.foldl (fun acc c => acc * 10 + (c.toNat - 48)) 0 : ℕ) : ℤ))
  else none

/-- Python `int(x)` on the modelled values: raises on `None` and on
unparseable strings. -/
def pyInt : PyVal → Except Unit ℤ
  | .none => .error ()
  | .int n => .ok n
  | .str s =>
      match pyIntOfString s with
      | some n => .ok n
      | Option.none => .error ()

/-- compare_api.py line 74:
`r_rep = int(r_item.get('REPEAT', 1)) if r_item.get('REPEAT') else 1` —
a missing or falsy `REPEAT` yields 1, a truthy one goes through `int(...)`,
which can raise. -/
def parseRepeatCompare (v : Option PyVal) : Except Unit ℤ :=
  match v with
  | Option.none => .ok 1
  | some w => if pyTruthy w then pyInt w else .ok 1

/-- sync_official_data.py lines 77–80:
`try: rep_val = int(item.get('REPEAT', 1)); except: rep_val = 1`. -/
def parseRepeatSync (v : Option PyVal) : ℤ :=
  match v with
  | Option.none => 1
  | some w =>
      match pyInt w with
      | .ok n => n
      | .error _ => 1

/-- A local record as compare_api.py reads it: its `text` and
`l_item.get('repeat', {}).get('max', 1)`. -/
structure LItem where
  text : String
  repeatMax : Option ℤ
deriving DecidableEq

/-- A remote record: `ARABIC_TEXT` (default `''`), `TITLE`, `REPEAT`. -/
structure RItem where
  arabicText : String
  title : String
  repeatField : Option PyVal
deriving DecidableEq

/-- The similarity computed in the loop, line 66:
`similar(r_text[:200], l_text[:200])` with both sides cleaned
(`rText` is the already-cleaned remote text). -/
def pairRatio (rText : String) (l : LItem) : ℚ :=
  similar (rText.data.take 200) ((cleanS l.text).data.take 200)

/-- Result of the scan over `local_all` for one remote item. -/
inductive ScanRes
  | found (l : LItem)
  | notFound (best : Option LItem) (bestRatio : ℚ)
deriving DecidableEq

/-- compare_api.py lines 60–84: track the running best candidate
(`if ratio > best_ratio`), and break at the first `ratio > 0.85`. -/
def scanLoop (rText : String) : List LItem → Option LItem → ℚ → ScanRes
  | [], best, bestRatio => .notFound best bestRatio
  | l :: ls, best, bestRatio =>
      let r := pairRatio rText l
      let best' := if bestRatio < r then some l else best
      let bestRatio' := if bestRatio < r then r else bestRatio
      if (85 : ℚ) / 100 < r then .found l
      else scanLoop rText ls best' bestRatio'

/-- The classification of a remote item. -/
inductive MatchOutcome
  | matched (l : LItem)
  | potentialMismatch (best : LItem) (score : ℚ)
  | missing
deriving DecidableEq

/-- Status classification for one remote item (lines 57–102): `Matched` when
the scan broke (`found`), else `Potential Mismatch` when `best_ratio > 0.5`
(reading `best_match`, an `AttributeError` if it is still `None`), else
`Missing`. -/
def classifyE (r : RItem) (locals : List LItem) : Except Unit MatchOutcome :=
  match scanLoop (cleanS r.arabicText) locals Option.none 0 with
  | .found l => .ok (.matched l)
  | .notFound best q =>
      if (1 : ℚ) / 2 < q then
        match best with
        | some b => .ok (.potentialMismatch b q)
        | Option.none => .error ()
      else .ok .missing

/-- A finding appended to `report_items` for one remote item. -/
inductive Finding
  | repeatMismatch (remoteRep localRep : ℤ)
  | potentialMismatch (best : LItem) (score : ℚ)
  | missing
deriving DecidableEq

/-- The report entry produced for one remote item (lines 57–102): a matched
item emits a `Repeat Mismatch` finding iff the parsed remote count differs
from the local `repeat.max` (and nothing otherwise); unmatched items emit
`Potential Mismatch` or `Missing`.  Pure over its inputs: no record is
modified, the result is only appended to the report. -/
def processRemote (r : RItem) (locals : List LItem) : Except Unit (Option Finding) :=
  match classifyE r locals with
  | .error e => .error e
  | .ok (.matched l) =>
      match parseRepeatCompare r.repeatField with
      | .error e => .error e
      | .ok rRep =>
          let lRep := l.repeatMax.getD 1
          if rRep ≠ lRep then .ok (some (.repeatMismatch rRep lRep))
          else .ok Option.none
  | .ok (.potentialMismatch b q) => .ok (some (.potentialMismatch b q))
  | .ok .missing => .ok (some .missing)

theorem ratio_nonneg (a b : List Char) : 0 ≤ ratio a b := by
  unfold ratio
  simp only []
  split
  · norm_num
  · positivity

/-- The scan breaks at the first local item whose ratio exceeds 0.85,
whatever the incoming best state. -/
theorem scanLoop_break (rText : String) :
    ∀ (l₁ : List LItem) (lm : LItem) (l₂ : List LItem) (b : Option LItem) (q : ℚ),
    (∀ x ∈ l₁, pairRatio rText x ≤ 85 / 100) →
    (85 : ℚ) / 100 < pairRatio rText lm →
    scanLoop rText (l₁ ++ lm :: l₂) b q = .found lm
  | [], lm, l₂, b, q, _, hm => by
      simp only [List.nil_append, scanLoop]
      rw [if_pos hm]
  | x :: l₁, lm, l₂, b, q, h₁, hm => by
      simp only [List.cons_append, scanLoop]
      rw [if_neg (not_lt.mpr (h₁ x (List.mem_cons_self _ _)))]
      exact scanLoop_break rText l₁ lm l₂ _ _
        (fun y hy => h₁ y (List.mem_cons_of_mem _ hy)) hm

/-- Items that do not beat the current best leave the state untouched. -/
theorem scanLoop_keep (rText : String) :
    ∀ (L : List LItem) (b : Option LItem) (q : ℚ),
    (∀ x ∈ L, pairRatio rText x ≤ q) → q ≤ 85 / 100 →
    scanLoop rText L b q = .notFound b q
  | [], _, _, _, _ => rfl
  | x :: L, b, q, h, hq => by
      have hx := h x (List.mem_cons_self _ _)
      simp only [scanLoop]
      rw [if_neg (not_lt.mpr (le_trans hx hq)), if_neg (not_lt.mpr hx),
        if_neg (not_lt.mpr hx)]
      exact scanLoop_keep rText L b q (fun y hy => h y (List.mem_cons_of_mem _ hy)) hq

/-- When every ratio stays at or below a bound `c ≤ 0.85`, the scan ends
unbroken with a best ratio at or below `c`. -/
theorem scanLoop_bounded (rText : String) :
    ∀ (L : List LItem) (b : Option LItem) (q c : ℚ),
    (∀ x ∈ L, pairRatio rText x ≤ c) → q ≤ c → c ≤ 85 / 100 →
    ∃ b' q', scanLoop rText L b q = .notFound b' q' ∧ q' ≤ c
  | [], b, q, c, _, hq, _ => ⟨b, q, rfl, hq⟩
  | x :: L, b, q, c, h, hq, hc => by
      have hx := h x (List.mem_cons_self _ _)
      simp only [scanLoop]
      rw [if_neg (not_lt.mpr (le_trans hx hc))]
      by_cases himp : q < pairRatio rText x
      · rw [if_pos himp, if_pos himp]
        exact scanLoop_bounded rText L _ _ c
          (fun y hy => h y (List.mem_cons_of_mem _ hy)) hx hc
      · rw [if_neg himp, if_neg himp]
        exact scanLoop_bounded rText L _ _ c
          (fun y hy => h y (List.mem_cons_of_mem _ hy)) hq hc

/-- The first strict maximum of the ratios is recorded as the final best
candidate when no item breaks the scan. -/
theorem scanLoop_best (rText : String) :
    ∀ (l₁ : List LItem) (lb : LItem) (l₂ : List LItem) (b : Option LItem) (q : ℚ),
    (∀ x ∈ l₁ ++ lb :: l₂, pairRatio rText x ≤ 85 / 100) →
    q < pairRatio rText lb →
    (∀ x ∈ l₁, pairRatio rText x < pairRatio rText lb) →
    (∀ x ∈ l₂, pairRatio rText x ≤ pairRatio rText lb) →
    scanLoop rText (l₁ ++ lb :: l₂) b q = .notFound (some lb) (pairRatio rText lb)
  | [], lb, l₂, b, q, h85, hq, _, hle => by
      have hb85 : pairRatio rText lb ≤ 85 / 100 :=
        h85 lb (by simp)
      simp only [List.nil_append, scanLoop]
      rw [if_neg (not_lt.mpr hb85), if_pos hq, if_pos hq]
      exact scanLoop_keep rText l₂ _ _ hle hb85
  | x :: l₁, lb, l₂, b, q, h85, hq, hlt, hle => by
      have hx85 : pairRatio rText x ≤ 85 / 100 := h85 x (by simp)
      have hx_lt := hlt x (List.mem_cons_self _ _)
      have h85' : ∀ y ∈ l₁ ++ lb :: l₂, pairRatio rText y ≤ 85 / 100 :=
        fun y hy => h85 y (List.mem_cons_of_mem _ hy)
      have hlt' : ∀ y ∈ l₁, pairRatio rText y < pairRatio rText lb :=
        fun y hy => hlt y (List.mem_cons_of_mem _ hy)
      simp only [List.cons_append, scanLoop]
      rw [if_neg (not_lt.mpr hx85)]
      by_cases himp : q < pairRatio rText x
      · rw [if_pos himp, if_pos himp]
        exact scanLoop_best rText l₁ lb l₂ _ _ h85' hx_lt hlt' hle
      · rw [if_neg himp, if_neg himp]
        exact scanLoop_best rText l₁ lb l₂ _ _ h85' hq hlt' hle

/-- Starting from no candidate and best ratio 0, an empty final candidate
forces a final best ratio of at most 0. -/
theorem scanLoop_none_inv (rText : String) :
    ∀ (L : List LItem) (b : Option LItem) (q : ℚ),
    (b = Option.none → q ≤ 0) →
    ∀ {b' : Option LItem} {q' : ℚ},
    scanLoop rText L b q = .notFound b' q' → b' = Option.none → q' ≤ 0
  | [], b, q, hP, b', q', heq => by
      simp only [scanLoop] at heq
      cases heq
      exact hP
  | x :: L, b, q, hP, b', q', heq => by
      simp only [scanLoop] at heq
      split at heq
      · cases heq
      · refine scanLoop_none_inv rText L _ _ ?_ heq
        intro hnone
        by_cases himp : q < pairRatio rText x
        · rw [if_pos himp] at hnone; cases hnone
        · rw [if_neg himp] at hnone
          rw [if_neg himp]
          exact hP hnone

/-- C1: for every remote item the matcher scans the local collection in
order, scoring the first 200 characters of the cleaned texts; the first
local candidate with ratio > 0.85 yields status Matched and stops the scan;
otherwise a best candidate with ratio > 0.50 yields Potential Mismatch with
that (first-maximal) candidate and its score; otherwise the status is
Missing. -/
theorem C1_matcher_decision_policy (r : RItem) :
    (∀ (l₁ : List LItem) (lm : LItem) (l₂ : List LItem),
      (∀ x ∈ l₁, pairRatio (cleanS r.arabicText) x ≤ 85 / 100) →
      (85 : ℚ) / 100 < pairRatio (cleanS r.arabicText) lm →
      classifyE r (l₁ ++ lm :: l₂) = .ok (.matched lm))
    ∧ (∀ (l₁ : List LItem) (lb : LItem) (l₂ : List LItem),
      (∀ x ∈ l₁ ++ lb :: l₂, pairRatio (cleanS r.arabicText) x ≤ 85 / 100) →
      (1 : ℚ) / 2 < pairRatio (cleanS r.arabicText) lb →
      (∀ x ∈ l₁, pairRatio (cleanS r.arabicText) x < pairRatio (cleanS r.arabicText) lb) →
      (∀ x ∈ l₂, pairRatio (cleanS r.arabicText) x ≤ pairRatio (cleanS r.arabicText) lb) →
      classifyE r (l₁ ++ lb :: l₂)
        = .ok (.potentialMismatch lb (pairRatio (cleanS r.arabicText) lb)))
    ∧ (∀ L : List LItem,
      (∀ x ∈ L, pairRatio (cleanS r.arabicText) x ≤ 1 / 2) →
      classifyE r L = .ok .missing) := by
  refine ⟨?_, ?_, ?_⟩
  · intro l₁ lm l₂ h₁ hm
    unfold classifyE
    rw [scanLoop_break (cleanS r.arabicText) l₁ lm l₂ Option.none 0 h₁ hm]
  · intro l₁ lb l₂ h85 hb hlt hle
    unfold classifyE
    rw [scanLoop_best (cleanS r.arabicText) l₁ lb l₂ Option.none 0 h85
      (lt_trans (by norm_num) hb) hlt hle]
    simp only []
    rw [if_pos hb]
  · intro L hL
    unfold classifyE
    obtain ⟨b', q', heq, hq'⟩ :=
      scanLoop_bounded (cleanS r.arabicText) L Option.none 0 (1 / 2) hL
        (by norm_num) (by norm_num)
    rw [heq]
    simp only []
    rw [if_neg (not_lt.mpr hq')]

/-- Witness for C1: the three decision branches realised on concrete inputs
(identical texts give ratio 1 > 0.85; `abc` vs `abd` gives 2/3 ∈ (0.5, 0.85];
`ab` vs `cd` gives 0 ≤ 0.5). -/
theorem C1_matcher_decision_policy_witness :
    classifyE ⟨"ab", "t", Option.none⟩ [⟨"ab", Option.none⟩]
      = .ok (.matched ⟨"ab", Option.none⟩)
    ∧ classifyE ⟨"abc", "t", Option.none⟩ [⟨"abd", Option.none⟩]
      = .ok (.potentialMismatch ⟨"abd", Option.none⟩
          (pairRatio (cleanS "abc") ⟨"abd", Option.none⟩))
    ∧ classifyE ⟨"ab", "t", Option.none⟩ [⟨"cd", Option.none⟩] = .ok .missing := by
  refine ⟨?_, ?_, ?_⟩
  · exact (C1_matcher_decision_policy ⟨"ab", "t", Option.none⟩).1 [] _ []
      (by intro x hx; cases hx) (by with_unfolding_all decide)
  · exact (C1_matcher_decision_policy ⟨"abc", "t", Option.none⟩).2.1 [] _ []
      (by with_unfolding_all decide) (by with_unfolding_all decide)
      (by intro x hx; cases hx) (by intro x hx; cases hx)
  · exact (C1_matcher_decision_policy ⟨"ab", "t", Option.none⟩).2.2 _
      (by with_unfolding_all decide)

/-- C10 (implicit): the Potential Mismatch branch is safe — whenever the
best ratio exceeds 0.50 a best candidate has been recorded, so building the
report never dereferences a missing candidate (the classifier never errors),
and an empty local collection classifies every remote item as Missing. -/
theorem C10_potential_mismatch_safety (r : RItem) (locals : List LItem) :
    classifyE r locals ≠ .error () ∧ classifyE r [] = .ok .missing := by
  constructor
  · unfold classifyE
    cases hscan : scanLoop (cleanS r.arabicText) locals Option.none 0 with
    | found l => simp
    | notFound b q =>
        have hinv := scanLoop_none_inv (cleanS r.arabicText) locals Option.none 0
          (fun _ => le_refl 0) hscan
        simp only []
        split
        · next hq =>
            cases b with
            | none => exact absurd (hinv rfl) (by linarith)
            | some b => simp
        · simp
  · unfold classifyE
    simp only [scanLoop]
    rw [if_neg (by norm_num)]

/-- C5: for every remote item classified Matched, a Repeat Mismatch finding
carrying both counts is emitted iff the parsed remote count differs from the
matched local record's `repeat.max` (and no finding when they agree); in
particular the spec's scenario — identical text `أَصْبَحْنَا وَأَصْبَحَ` with
remote count 1 and local count 3 — yields the finding (1, 3).  The embedding
is a pure function: inputs are never modified, findings are only returned. -/
theorem C5_repeat_mismatch_advisory :
    (∀ (r : RItem) (locals : List LItem) (l : LItem) (rRep : ℤ),
      scanLoop (cleanS r.arabicText) locals Option.none 0 = .found l →
      parseRepeatCompare r.repeatField = .ok rRep →
      (rRep = l.repeatMax.getD 1 → processRemote r locals = .ok Option.none) ∧
      (rRep ≠ l.repeatMax.getD 1 →
        processRemote r locals
          = .ok (some (.repeatMismatch rRep (l.repeatMax.getD 1)))))
    ∧ processRemote ⟨"أَصْبَحْنَا وَأَصْبَحَ", "t", some (.int 1)⟩
        [⟨"أَصْبَحْنَا وَأَصْبَحَ", some 3⟩]
      = .ok (some (.repeatMismatch 1 3)) := by
  have hgen : ∀ (r : RItem) (locals : List LItem) (l : LItem) (rRep : ℤ),
      scanLoop (cleanS r.arabicText) locals Option.none 0 = .found l →
      parseRepeatCompare r.repeatField = .ok rRep →
      (rRep = l.repeatMax.getD 1 → processRemote r locals = .ok Option.none) ∧
      (rRep ≠ l.repeatMax.getD 1 →
        processRemote r locals
          = .ok (some (.repeatMismatch rRep (l.repeatMax.getD 1)))) := by
    intro r locals l rRep hscan hrep
    unfold processRemote classifyE
    rw [hscan]
    simp only []
    rw [hrep]
    simp only []
    constructor
    · intro he
      rw [if_neg (fun hne => hne he)]
    · intro hne
      rw [if_pos hne]
  refine ⟨hgen, ?_⟩
  have h1 : pairRatio (cleanS "أَصْبَحْنَا وَأَصْبَحَ")
      ⟨"أَصْبَحْنَا وَأَصْبَحَ", some 3⟩ = 1 := by
    unfold pairRatio similar
    exact ratio_refl _
  have hfound : scanLoop (cleanS "أَصْبَحْنَا وَأَصْبَحَ")
      [⟨"أَصْبَحْنَا وَأَصْبَحَ", some 3⟩] Option.none 0
      = .found ⟨"أَصْبَحْنَا وَأَصْبَحَ", some 3⟩ := by
    simp only [scanLoop, h1]
    rw [if_pos (by norm_num)]
  exact (hgen ⟨"أَصْبَحْنَا وَأَصْبَحَ", "t", some (.int 1)⟩
    [⟨"أَصْبَحْنَا وَأَصْبَحَ", some 3⟩] ⟨"أَصْبَحْنَا وَأَصْبَحَ", some 3⟩ 1
    hfound rfl).2 (by decide)

/-- Witness for C5: both branches of the advisory realised on concrete
matched pairs (differing counts emit the finding, equal counts emit
nothing). -/
theorem C5_repeat_mismatch_advisory_witness :
    processRemote ⟨"ab", "t", some (.int 1)⟩ [⟨"ab", some 3⟩]
      = .ok (some (.repeatMismatch 1 3))
    ∧ processRemote ⟨"ab", "t", some (.int 2)⟩ [⟨"ab", some 2⟩]
      = .ok Option.none := by
  constructor
  · exact (C5_repeat_mismatch_advisory.1 ⟨"ab", "t", some (.int 1)⟩
      [⟨"ab", some 3⟩] ⟨"ab", some 3⟩ 1
      (by with_unfolding_all decide) rfl).2 (by decide)
  · exact (C5_repeat_mismatch_advisory.1 ⟨"ab", "t", some (.int 2)⟩
      [⟨"ab", some 2⟩] ⟨"ab", some 2⟩ 2
      (by with_unfolding_all decide) rfl).1 (by decide)

/-! ### C7: normalization and perfect-match scoring -/

/-- One elementary difference between two texts: replace one nonempty
whitespace run by another nonempty whitespace run, or insert one marker
glyph (its converse, deletion, comes from the symmetric closure). -/
inductive WsMarkerStep : List Char → List Char → Prop
  | ws (u v w₁ w₂ : List Char) (h₁ : w₁ ≠ []) (h₂ : w₂ ≠ [])
      (ha : ∀ c ∈ w₁, pyIsSpace c = true) (hb : ∀ c ∈ w₂, pyIsSpace c = true) :
      WsMarkerStep (u ++ w₁ ++ v) (u ++ w₂ ++ v)
  | marker (u v : List Char) :
      WsMarkerStep (u ++ v) (u ++ markerChar :: v)

/-- Texts that differ only in whitespace runs or marker occurrences. -/
def WsMarkerEquiv : List Char → List Char → Prop :=
  Relation.EqvGen WsMarkerStep

theorem space_ne_marker {c : Char} (h : pyIsSpace c = true) : c ≠ markerChar := by
  simp only [pyIsSpace, Bool.or_eq_true, decide_eq_true_eq] at h
  rcases h with ((((h | h) | h) | h) | h) | h <;> subst h <;> decide

/-- A nonempty whitespace run flushes the accumulator and resets the word
scan, irrespective of the run's content. -/
theorem wordsAux_space_run : ∀ (w : List Char), w ≠ [] →
    (∀ c ∈ w, pyIsSpace c = true) → ∀ (b acc : List Char),
    wordsAux (w ++ b) acc = (if acc = [] then [] else [acc.reverse]) ++ wordsAux b []
  | [], hne, _, _, _ => absurd rfl hne
  | [c], _, hsp, b, acc => by
      have hc : pyIsSpace c = true := hsp c (by simp)
      simp only [List.cons_append, List.nil_append, wordsAux, hc, if_true]
      split <;> simp
  | c :: c' :: w', _, hsp, b, acc => by
      have hc : pyIsSpace c = true := hsp c (by simp)
      have ih := wordsAux_space_run (c' :: w') (by simp)
        (fun x hx => hsp x (List.mem_cons_of_mem _ hx)) b []
      simp only [List.cons_append, wordsAux, hc, if_true] at ih ⊢
      rw [ih]
      split <;> simp

/-- Replacing one nonempty whitespace run by another does not change the
word decomposition. -/
theorem wordsAux_ws_invariant (w₁ w₂ : List Char) (h₁ : w₁ ≠ []) (h₂ : w₂ ≠ [])
    (ha : ∀ c ∈ w₁, pyIsSpace c = true) (hb : ∀ c ∈ w₂, pyIsSpace c = true) :
    ∀ (a b acc : List Char),
    wordsAux (a ++ w₁ ++ b) acc = wordsAux (a ++ w₂ ++ b) acc
  | [], b, acc => by
      simp only [List.nil_append]
      rw [wordsAux_space_run w₁ h₁ ha b acc, wordsAux_space_run w₂ h₂ hb b acc]
  | c :: a, b, acc => by
      simp only [List.cons_append, wordsAux]
      by_cases hc : pyIsSpace c = true
      · simp only [hc, if_true]
        have ih := wordsAux_ws_invariant w₁ w₂ h₁ h₂ ha hb a b []
        split
        · exact ih
        · exact congrArg _ ih
      · simp only [Bool.not_eq_true] at hc
        simp only [hc]
        exact wordsAux_ws_invariant w₁ w₂ h₁ h₂ ha hb a b (c :: acc)

theorem removeMarker_append (u v : List Char) :
    removeMarker (u ++ v) = removeMarker u ++ removeMarker v := by
  simp [removeMarker]

theorem removeMarker_marker_cons (v : List Char) :
    removeMarker (markerChar :: v) = removeMarker v := by
  simp [removeMarker]

theorem removeMarker_of_spaces {w : List Char}
    (h : ∀ c ∈ w, pyIsSpace c = true) : removeMarker w = w :=
  List.filter_eq_self.mpr fun c hc => by
    simpa using space_ne_marker (h c hc)

/-- A single whitespace-or-marker edit leaves the cleaned text unchanged. -/
theorem cleanList_step {a b : List Char} (h : WsMarkerStep a b) :
    cleanList a = cleanList b := by
  cases h with
  | ws u v w₁ w₂ h₁ h₂ ha hb =>
      unfold cleanList words
      rw [removeMarker_append, removeMarker_append, removeMarker_append,
        removeMarker_append, removeMarker_of_spaces ha, removeMarker_of_spaces hb,
        wordsAux_ws_invariant w₁ w₂ h₁ h₂ ha hb (removeMarker u) (removeMarker v) []]
  | marker u v =>
      unfold cleanList
      rw [removeMarker_append, removeMarker_append, removeMarker_marker_cons]

/-- C7: texts differing only in whitespace runs or occurrences of the marker
glyph ۝ clean to the same string; and any pair of texts identical after
cleaning scores similarity exactly 1.0, is classified Matched, and emits no
Repeat Mismatch finding when the repeat counts agree. -/
theorem C7_normalization_perfect_match :
    (∀ t₁ t₂ : List Char, WsMarkerEquiv t₁ t₂ → cleanList t₁ = cleanList t₂)
    ∧ (∀ (r : RItem) (l : LItem), cleanS r.arabicText = cleanS l.text →
        pairRatio (cleanS r.arabicText) l = 1
        ∧ classifyE r [l] = .ok (.matched l)
        ∧ ∀ rRep : ℤ, parseRepeatCompare r.repeatField = .ok rRep →
            rRep = l.repeatMax.getD 1 → processRemote r [l] = .ok Option.none) := by
  constructor
  · intro t₁ t₂ h
    induction h with
    | rel a b hab => exact cleanList_step hab
    | refl a => rfl
    | symm a b _ ih => exact ih.symm
    | trans a b c _ _ ih₁ ih₂ => exact ih₁.trans ih₂
  · intro r l hcl
    have h1 : pairRatio (cleanS r.arabicText) l = 1 := by
      unfold pairRatio similar
      rw [hcl]
      exact ratio_refl _
    have hfound : scanLoop (cleanS r.arabicText) [l] Option.none 0 = .found l := by
      simp only [scanLoop, h1]
      rw [if_pos (by norm_num)]
    refine ⟨h1, ?_, ?_⟩
    · unfold classifyE
      rw [hfound]
    · intro rRep hrep he
      unfold processRemote classifyE
      rw [hfound]
      simp only []
      rw [hrep]
      simp only []
      rw [if_neg (fun hne => hne he)]

/-- Witness for C7: `"a  b"` and `"a ۝b"` differ by one whitespace-run edit
and one marker insertion and clean identically; and a concrete
identical-after-cleaning pair scores 1, matches, and emits no finding. -/
theorem C7_normalization_perfect_match_witness :
    cleanList ['a', ' ', ' ', 'b'] = cleanList ['a', ' ', markerChar, 'b']
    ∧ pairRatio (cleanS "ab") ⟨"ab", some 2⟩ = 1
    ∧ classifyE ⟨"ab", "t", some (.int 2)⟩ [⟨"ab", some 2⟩]
      = .ok (.matched ⟨"ab", some 2⟩)
    ∧ processRemote ⟨"ab", "t", some (.int 2)⟩ [⟨"ab", some 2⟩]
      = .ok Option.none := by
  have hequiv : WsMarkerEquiv ['a', ' ', ' ', 'b'] ['a', ' ', markerChar, 'b'] := by
    refine Relation.EqvGen.trans _ ['a', ' ', 'b'] _
      (Relation.EqvGen.rel _ _ ?_) (Relation.EqvGen.rel _ _ ?_)
    · exact WsMarkerStep.ws ['a'] ['b'] [' ', ' '] [' '] (by simp) (by simp)
        (by intro c hc; simp at hc; subst hc; rfl)
        (by intro c hc; simp at hc; subst hc; rfl)
    · exact WsMarkerStep.marker ['a', ' '] ['b']
  have h2 := (C7_normalization_perfect_match.2 ⟨"ab", "t", some (.int 2)⟩
    ⟨"ab", some 2⟩ rfl)
  exact ⟨C7_normalization_perfect_match.1 _ _ hequiv, h2.1, h2.2.1,
    h2.2.2 2 rfl rfl⟩

/-! ### C4: malformed repeat counts -/

/-- C4 counterexample: in compare_api.py a truthy non-numeric `REPEAT`
string is passed to `int(...)` unguarded, so the run raises instead of
defaulting to 1 — refuting "never causes the run to fail in every component
that reads a repeat count". -/
theorem C4_malformed_repeat_counterexample :
    parseRepeatCompare (some (.str "abc")) = .error () := rfl

/-- C4 (amended): sync_official_data.py defaults every malformed or missing
`REPEAT` to 1 (its `int(...)` is wrapped in `try/except`), and compare_api.py
defaults a missing or falsy (`None`/empty/0) `REPEAT` to 1; but a truthy
unparseable `REPEAT` string raises in compare_api.py rather than defaulting. -/
theorem C4_malformed_repeat_amended :
    (∀ s : String, pyIntOfString s = Option.none →
      parseRepeatSync (some (.str s)) = 1)
    ∧ parseRepeatSync Option.none = 1
    ∧ parseRepeatSync (some (.str "abc")) = 1
    ∧ parseRepeatCompare Option.none = .ok 1
    ∧ parseRepeatCompare (some (.str "")) = .ok 1
    ∧ parseRepeatCompare (some (.int 0)) = .ok 1
    ∧ (∀ s : String, s ≠ "" → pyIntOfString s = Option.none →
      parseRepeatCompare (some (.str s)) = .error ()) := by
  refine ⟨?_, rfl, rfl, rfl, rfl, rfl, ?_⟩
  · intro s hs
    simp [parseRepeatSync, pyInt, hs]
  · intro s hne hs
    simp [parseRepeatCompare, pyInt, pyTruthy, hs, hne]

/-- Witness for C4 (amended): the quantified clauses realised at the
concrete unparseable string `"abc"`. -/
theorem C4_malformed_repeat_amended_witness :
    parseRepeatSync (some (.str "abc")) = 1
    ∧ parseRepeatCompare (some (.str "abc")) = .error () := by
  constructor
  · exact C4_malformed_repeat_amended.1 "abc" rfl
  · exact C4_malformed_repeat_amended.2.2.2.2.2.2 "abc" (by decide) rfl


/-! ### convert_adhkar.py: the reclassifier -/

/-- The static `CATEGORY_MAP`: source id ↦ (source, category, hisnCategory). -/
def CATEGORY_MAP : ℕ → Option (String × Option String × Option String)
  | 1 => some ("daily", Option.none, Option.none)
  | 2 => some ("daily", some "sleep", Option.none)
  | 3 => some ("hisn", some "hisn", some "waking")
  | 4 => some ("hisn", some "hisn", some "home")
  | 5 => some ("hisn", some "hisn", some "home")
  | 6 => some ("hisn", some "hisn", some "wudu")
  | 7 => some ("hisn", some "hisn", some "wudu")
  | 8 => some ("hisn", some "hisn", some "home")
  | 9 => some ("hisn", some "hisn", some "home")
  | 10 => some ("hisn", some "hisn", some "prayer")
  | 11 => some ("hisn", some "hisn", some "prayer")
  | 12 => some ("hisn", some "hisn", some "prayer")
  | 13 => some ("hisn", some "hisn", some "adhan")
  | 14 => some ("hisn", some "hisn", some "misc")
  | 15 => some ("hisn", some "hisn", some "misc")
  | 16 => some ("hisn", some "hisn", some "misc")
  | 17 => some ("hisn", some "hisn", some "misc")
  | 18 => some ("hisn", some "hisn", some "prayer")
  | 19 => some ("hisn", some "hisn", some "prayer")
  | 20 => some ("hisn", some "hisn", some "prayer")
  | 21 => some ("hisn", some "hisn", some "prayer")
  | 22 => some ("hisn", some "hisn", some "prayer")
  | 23 => some ("hisn", some "hisn", some "prayer")
  | 24 => some ("hisn", some "hisn", some "prayer")
  | 25 => some ("hisn", some "hisn", some "prayer")
  | 26 => some ("hisn", some "hisn", some "prayer")
  | 27 => some ("daily", some "after_prayer", Option.none)
  | 28 => some ("hisn", some "hisn", some "prayer")
  | 29 => some ("hisn", some "hisn", some "sleeping")
  | 30 => some ("hisn", some "hisn", some "sleeping")
  | 31 => some ("hisn", some "hisn", some "sleeping")
  | 32 => some ("hisn", some "hisn", some "prayer")
  | 33 => some ("hisn", some "hisn", some "prayer")
  | 34 => some ("hisn", some "hisn", some "distress")
  | 35 => some ("hisn", some "hisn", some "distress")
  | 36 => some ("hisn", some "hisn", some "protection")
  | 37 => some ("hisn", some "hisn", some "protection")
  | 38 => some ("hisn", some "hisn", some "protection")
  | 39 => some ("hisn", some "hisn", some "protection")
  | 40 => some ("hisn", some "hisn", some "protection")
  | 41 => some ("hisn", some "hisn", some "distress")
  | 42 => some ("hisn", some "hisn", some "prayer")
  | 43 => some ("hisn", some "hisn", some "distress")
  | 44 => some ("hisn", some "hisn", some "forgiveness")
  | 45 => some ("hisn", some "hisn", some "protection")
  | 46 => some ("hisn", some "hisn", some "misc")
  | 47 => some ("hisn", some "hisn", some "misc")
  | 48 => some ("hisn", some "hisn", some "protection")
  | 49 => some ("hisn", some "hisn", some "illness")
  | 50 => some ("hisn", some "hisn", some "illness")
  | 51 => some ("hisn", some "hisn", some "illness")
  | 52 => some ("hisn", some "hisn", some "illness")
  | 53 => some ("hisn", some "hisn", some "illness")
  | 54 => some ("hisn", some "hisn", some "illness")
  | 55 => some ("hisn", some "hisn", some "illness")
  | 56 => some ("hisn", some "hisn", some "illness")
  | 57 => some ("hisn", some "hisn", some "illness")
  | 58 => some ("hisn", some "hisn", some "illness")
  | 59 => some ("hisn", some "hisn", some "illness")
  | 60 => some ("hisn", some "hisn", some "illness")
  | 61 => some ("hisn", some "hisn", some "misc")
  | 62 => some ("hisn", some "hisn", some "misc")
  | 63 => some ("hisn", some "hisn", some "misc")
  | 64 => some ("hisn", some "hisn", some "misc")
  | 65 => some ("hisn", some "hisn", some "misc")
  | 66 => some ("hisn", some "hisn", some "misc")
  | 67 => some ("hisn", some "hisn", some "misc")
  | 68 => some ("hisn", some "hisn", some "food")
  | 69 => some ("hisn", some "hisn", some "food")
  | 70 => some ("hisn", some "hisn", some "food")
  | 71 => some ("hisn", some "hisn", some "food")
  | 72 => some ("hisn", some "hisn", some "food")
  | 73 => some ("hisn", some "hisn", some "food")
  | 74 => some ("hisn", some "hisn", some "food")
  | 75 => some ("hisn", some "hisn", some "food")
  | 76 => some ("hisn", some "hisn", some "food")
  | 77 => some ("hisn", some "hisn", some "misc")
  | 78 => some ("hisn", some "hisn", some "misc")
  | 79 => some ("hisn", some "hisn", some "misc")
  | 80 => some ("hisn", some "hisn", some "misc")
  | 81 => some ("hisn", some "hisn", some "misc")
  | 82 => some ("hisn", some "hisn", some "protection")
  | 83 => some ("hisn", some "hisn", some "misc")
  | 84 => some ("hisn", some "hisn", some "misc")
  | 85 => some ("hisn", some "hisn", some "misc")
  | 86 => some ("hisn", some "hisn", some "misc")
  | 87 => some ("hisn", some "hisn", some "gratitude")
  | 88 => some ("hisn", some "hisn", some "protection")
  | 89 => some ("hisn", some "hisn", some "misc")
  | 90 => some ("hisn", some "hisn", some "misc")
  | 91 => some ("hisn", some "hisn", some "misc")
  | 92 => some ("hisn", some "hisn", some "protection")
  | 93 => some ("hisn", some "hisn", some "misc")
  | 94 => some ("hisn", some "hisn", some "protection")
  | 95 => some ("hisn", some "hisn", some "travel")
  | 96 => some ("hisn", some "hisn", some "travel")
  | 97 => some ("hisn", some "hisn", some "travel")
  | 98 => some ("hisn", some "hisn", some "travel")
  | 99 => some ("hisn", some "hisn", some "travel")
  | 100 => some ("hisn", some "hisn", some "travel")
  | 101 => some ("hisn", some "hisn", some "travel")
  | 102 => some ("hisn", some "hisn", some "travel")
  | 103 => some ("hisn", some "hisn", some "travel")
  | 104 => some ("hisn", some "hisn", some "travel")
  | 105 => some ("hisn", some "hisn", some "travel")
  | 106 => some ("hisn", some "hisn", some "misc")
  | 107 => some ("hisn", some "hisn", some "prayer")
  | 108 => some ("hisn", some "hisn", some "misc")
  | 109 => some ("hisn", some "hisn", some "misc")
  | 110 => some ("hisn", some "hisn", some "misc")
  | 111 => some ("hisn", some "hisn", some "misc")
  | 112 => some ("hisn", some "hisn", some "forgiveness")
  | 113 => some ("hisn", some "hisn", some "misc")
  | 114 => some ("hisn", some "hisn", some "misc")
  | 115 => some ("hisn", some "hisn", some "misc")
  | 116 => some ("hisn", some "hisn", some "misc")
  | 117 => some ("hisn", some "hisn", some "misc")
  | 118 => some ("hisn", some "hisn", some "misc")
  | 119 => some ("hisn", some "hisn", some "misc")
  | 120 => some ("hisn", some "hisn", some "misc")
  | 121 => some ("hisn", some "hisn", some "misc")
  | 122 => some ("hisn", some "hisn", some "gratitude")
  | 123 => some ("hisn", some "hisn", some "gratitude")
  | 124 => some ("hisn", some "hisn", some "illness")
  | 125 => some ("hisn", some "hisn", some "protection")
  | 126 => some ("hisn", some "hisn", some "protection")
  | 127 => some ("hisn", some "hisn", some "misc")
  | 128 => some ("hisn", some "hisn", some "protection")
  | 129 => some ("hisn", some "hisn", some "forgiveness")
  | 130 => some ("hisn", some "hisn", some "gratitude")
  | 131 => some ("hisn", some "hisn", some "gratitude")
  | 132 => some ("hisn", some "hisn", some "misc")
  | _ => Option.none

/-- `MORNING_KEYWORDS` (text contains these → morning only). -/
def MORNING_KEYWORDS : List String :=
  ["أَصْبَحْنَا", "أَصْبَحْتُ", "أَصْبَحَ", "إذا أصبحَ", "إذا أصبح"]

/-- `EVENING_KEYWORDS`. -/
def EVENING_KEYWORDS : List String :=
  ["أَمْسَيْنَا", "أَمْسَيْتُ", "أَمْسَى", "إذا أمسى"]

/-- `classify_morning_evening`: morning-only, evening-only, or both
(both keywords present, or neither → both). -/
def classify_morning_evening (text : String) : List String :=
  let has_morning := MORNING_KEYWORDS.any (fun kw => containsSub text kw)
  let has_evening := EVENING_KEYWORDS.any (fun kw => containsSub text kw)
  if has_morning && !has_evening then ["morning"]
  else if has_evening && !has_morning then ["evening"]
  else ["morning", "evening"]

/-- Decimal digits of a natural number (fuel-based; `fuel = n + 1` always
suffices). -/
def natReprAux : ℕ → ℕ → List Char
  | 0, _ => []
  | fuel + 1, n =>
      if n < 10 then [Char.ofNat (48 + n)]
      else natReprAux fuel (n / 10) ++ [Char.ofNat (48 + n % 10)]

/-- Python `f"{n}"` for a natural number. -/
def natRepr (n : ℕ) : String := ⟨natReprAux (n + 1) n⟩

/-- Python `f"{n:03d}"` (numbers of four or more digits print in full). -/
def pad3 (n : ℕ) : List Char :=
  if n < 10 then ['0', '0', Char.ofNat (48 + n)]
  else if n < 100 then ['0', Char.ofNat (48 + n / 10), Char.ofNat (48 + n % 10)]
  else (natRepr n).data

/-- `make_id`: `f"adhkar-{source_cat_id}-{item_index:03d}"` plus an optional
`-{suffix}` (built directly as a character list). -/
def makeId (sourceCatId itemIndex : ℕ) (suffix : Option Char) : String :=
  ⟨"adhkar-".data ++ (natRepr sourceCatId).data ++ "-".data ++ pad3 itemIndex
    ++ (match suffix with
        | Option.none => []
        | some c => ['-', c])⟩

/-- A raw source item `{id, text, count}` (`count` optional; source ids are
1-based). -/
structure RawItem where
  idnum : ℕ
  text : String
  count : Option ℤ
deriving DecidableEq, Inhabited

/-- The app's DhikrJSON record as produced by the converter (the constant
`None`-valued fields `benefit` and `repeat.note` are omitted). -/
structure DhikrRec where
  id : String
  category : Option String
  hisnCategory : Option String
  source : String
  title : String
  text : String
  reference : String
  repeatMin : ℤ
  repeatMax : ℤ
  orderIndex : ℕ
  grading : String
  isOptional : Bool
deriving DecidableEq, Inhabited

/-- `convert_item`: the mapped category/subcategory are copied verbatim and
`repeat.min = repeat.max = item.get("count", 1)`. -/
def convert_item (sourceCatId : ℕ) (sourceCategoryName : String) (item : RawItem)
    (itemIndex : ℕ) (category : Option String) (hisnCategory : Option String)
    (source : String) : DhikrRec :=
  { id := makeId sourceCatId itemIndex Option.none
    category := category
    hisnCategory := hisnCategory
    source := source
    title := sourceCategoryName
    text := item.text
    reference := ""
    repeatMin := item.count.getD 1
    repeatMax := item.count.getD 1
    orderIndex := itemIndex + 1
    grading := "sahih"
    isOptional := false }

/-- One category-1 item\'s records, given the current morning/evening
orderIndex counters (convert_adhkar.py lines 230–253); the id is overridden
with `make_id(cat_id, item["id"] - 1, suffix=cls[0])`, `cls[0]` being
`m`/`e`.  Returns the records and the updated counters. -/
def emitSplitItem (item : RawItem) (mIdx eIdx : ℕ) :
    List DhikrRec × ℕ × ℕ :=
  (classify_morning_evening item.text).foldl
    (fun st cls =>
      let idx := if cls = "morning" then st.2.1 else st.2.2
      let entry := convert_item 1
        (if cls = "morning" then "أذكار الصباح" else "أذكار المساء")
        item idx (some cls) Option.none "daily"
      let entry2 := { entry with
        id := makeId 1 (item.idnum - 1)
          (some (if cls = "morning" then 'm' else 'e')) }
      (st.1 ++ [entry2],
       if cls = "morning" then (st.2.1 + 1, st.2.2) else (st.2.1, st.2.2 + 1)))
    ([], mIdx, eIdx)

/-- The category-1 morning/evening split loop with its two independent
per-branch orderIndex counters. -/
def processCat1 : List RawItem → ℕ → ℕ → List DhikrRec
  | [], _, _ => []
  | item :: items, mIdx, eIdx =>
      (emitSplitItem item mIdx eIdx).1
        ++ processCat1 items (emitSplitItem item mIdx eIdx).2.1
            (emitSplitItem item mIdx eIdx).2.2

/-- One source category\'s contribution to the output (convert_adhkar.py
lines 217–269): unmapped ids are skipped with a warning, id 1 is split,
any other mapped id converts each raw item in order. -/
def convertCategory (catId : ℕ) (catName : String) (items : List RawItem) :
    List DhikrRec :=
  match CATEGORY_MAP catId with
  | Option.none => []
  | some (sourceType, category, hisnCategory) =>
      if catId = 1 then processCat1 items 0 0
      else items.enum.map fun p =>
        convert_item catId catName p.2 p.1 category hisnCategory sourceType

/-- The whole conversion: `main`\'s loop over the source categories,
appending each category\'s records. -/
def convertAll (cats : List (ℕ × String × List RawItem)) : List DhikrRec :=
  (cats.map (fun c => convertCategory c.1 c.2.1 c.2.2)).flatten

/-! ### sync_official_data.py: the cid-27 morning/evening split -/

/-- sync_official_data.py lines 109–124: for category 27, a text containing
`صباح` or `أصبح` goes to morning only (an `elif` chain, so this wins even if
evening markers are also present); else `مسا` or `أمس` goes to evening only;
else the item is duplicated into both with ids suffixed `-m` / `-e`.
Returns the `(category, id)` pairs of the appended records. -/
def syncSplit27 (dhikrId : String) (text : String) : List (String × String) :=
  if containsSub text "صباح" || containsSub text "أصبح" then
    [("morning", dhikrId)]
  else if containsSub text "مسا" || containsSub text "أمس" then
    [("evening", dhikrId)]
  else
    [("morning", dhikrId ++ "-m"), ("evening", dhikrId ++ "-e")]

/-- Projections of the non-split conversion loop, for an arbitrary
enumeration start. -/
theorem convertLoop_proj_cats (catId : ℕ) (name : String) (cat hisn : Option String)
    (src : String) :
    ∀ (items : List RawItem) (k : ℕ),
    ((List.enumFrom k items).map
      (fun p => convert_item catId name p.2 p.1 cat hisn src)).map
      (fun r => (r.category, r.hisnCategory)) = items.map (fun _ => (cat, hisn))
  | [], _ => rfl
  | it :: items, k => by
      simp only [List.enumFrom, List.map_cons]
      congr 1
      exact convertLoop_proj_cats catId name cat hisn src items (k + 1)

theorem convertLoop_proj_repeat (catId : ℕ) (name : String) (cat hisn : Option String)
    (src : String) :
    ∀ (items : List RawItem) (k : ℕ),
    ((List.enumFrom k items).map
      (fun p => convert_item catId name p.2 p.1 cat hisn src)).map
      (fun r => (r.repeatMin, r.repeatMax))
      = items.map (fun it => (it.count.getD 1, it.count.getD 1))
  | [], _ => rfl
  | it :: items, k => by
      simp only [List.enumFrom, List.map_cons]
      congr 1
      exact convertLoop_proj_repeat catId name cat hisn src items (k + 1)

theorem convertLoop_proj_order (catId : ℕ) (name : String) (cat hisn : Option String)
    (src : String) :
    ∀ (items : List RawItem) (k : ℕ),
    ((List.enumFrom k items).map
      (fun p => convert_item catId name p.2 p.1 cat hisn src)).map
      (fun r => r.orderIndex) = List.range' (k + 1) items.length
  | [], _ => rfl
  | it :: items, k => by
      simp only [List.enumFrom, List.map_cons, List.length_cons, List.range'_succ]
      congr 1
      exact convertLoop_proj_order catId name cat hisn src items (k + 1)

theorem classify_cases (t : String) :
    classify_morning_evening t = ["morning"]
    ∨ classify_morning_evening t = ["evening"]
    ∨ classify_morning_evening t = ["morning", "evening"] := by
  unfold classify_morning_evening
  simp only []
  split
  · exact Or.inl rfl
  · split
    · exact Or.inr (Or.inl rfl)
    · exact Or.inr (Or.inr rfl)

/-- The records a split item emits, projected to categories and ids, follow
its classification exactly. -/
theorem emitSplitItem_proj (item : RawItem) (mIdx eIdx : ℕ) :
    ((emitSplitItem item mIdx eIdx).1.map (fun r => r.category))
      = (classify_morning_evening item.text).map some
    ∧ ((emitSplitItem item mIdx eIdx).1.map (fun r => r.id))
      = (classify_morning_evening item.text).map
          (fun cls => makeId 1 (item.idnum - 1)
            (some (if cls = "morning" then 'm' else 'e'))) := by
  rcases classify_cases item.text with hc | hc | hc <;>
    constructor <;> simp [emitSplitItem, hc, convert_item]

theorem emitSplitItem_length (item : RawItem) (mIdx eIdx : ℕ) :
    (emitSplitItem item mIdx eIdx).1.length
      = (classify_morning_evening item.text).length := by
  have h := congrArg List.length (emitSplitItem_proj item mIdx eIdx).1
  simpa using h

theorem processCat1_length :
    ∀ (items : List RawItem) (mIdx eIdx : ℕ),
    (processCat1 items mIdx eIdx).length
      = (items.map (fun it => (classify_morning_evening it.text).length)).sum
  | [], _, _ => rfl
  | item :: items, mIdx, eIdx => by
      simp only [processCat1, List.length_append, List.map_cons, List.sum_cons,
        emitSplitItem_length, processCat1_length items]

/-- C2 counterexample: sync_official_data.py splits category 27 with an
`if/elif` chain, so the concrete item text `إذا أصبح وإذا أمسى` — which
contains both a morning marker (`أصبح`) and an evening marker (`أمس`) —
yields exactly one record, tagged morning, not the two records the claim
requires for a both-marker item. -/
theorem C2_morning_evening_split_counterexample :
    (containsSub "إذا أصبح وإذا أمسى" "أصبح" = true
      ∧ containsSub "إذا أصبح وإذا أمسى" "أمس" = true)
    ∧ syncSplit27 "sync-27-000" "إذا أصبح وإذا أمسى"
        = [("morning", "sync-27-000")] := by
  decide

/-- C2 (amended): in convert_adhkar.py the split is exactly as claimed —
morning-marker-only items yield one record tagged morning, evening-only one
tagged evening, both-or-neither two records (morning and evening) with
distinct ids suffixed `-m`/`-e` — and every split item appears in at least
one of the two branches.  In sync_official_data.py, no-marker items are
likewise duplicated into both branches with `-m`/`-e` ids, but an item
carrying both markers yields exactly one record, tagged morning (the
morning test comes first in the `if/elif`); every item still lands in at
least one branch. -/
theorem C2_morning_evening_split_amended :
    (∀ t : String,
      (MORNING_KEYWORDS.any (fun kw => containsSub t kw) = true →
        EVENING_KEYWORDS.any (fun kw => containsSub t kw) = false →
        classify_morning_evening t = ["morning"])
      ∧ (EVENING_KEYWORDS.any (fun kw => containsSub t kw) = true →
        MORNING_KEYWORDS.any (fun kw => containsSub t kw) = false →
        classify_morning_evening t = ["evening"])
      ∧ (MORNING_KEYWORDS.any (fun kw => containsSub t kw)
            = EVENING_KEYWORDS.any (fun kw => containsSub t kw) →
        classify_morning_evening t = ["morning", "evening"]))
    ∧ (∀ (item : RawItem) (mIdx eIdx : ℕ),
      ((emitSplitItem item mIdx eIdx).1.map (fun r => r.category))
        = (classify_morning_evening item.text).map some
      ∧ ((emitSplitItem item mIdx eIdx).1.map (fun r => r.id))
        = (classify_morning_evening item.text).map
            (fun cls => makeId 1 (item.idnum - 1)
              (some (if cls = "morning" then 'm' else 'e'))))
    ∧ (∀ k : ℕ, makeId 1 k (some 'm') ≠ makeId 1 k (some 'e'))
    ∧ (∀ t : String, "morning" ∈ classify_morning_evening t
        ∨ "evening" ∈ classify_morning_evening t)
    ∧ (∀ (dhikrId t : String),
      ((containsSub t "صباح" || containsSub t "أصبح") = true →
        syncSplit27 dhikrId t = [("morning", dhikrId)])
      ∧ ((containsSub t "صباح" || containsSub t "أصبح") = false →
        (containsSub t "مسا" || containsSub t "أمس") = true →
        syncSplit27 dhikrId t = [("evening", dhikrId)])
      ∧ ((containsSub t "صباح" || containsSub t "أصبح") = false →
        (containsSub t "مسا" || containsSub t "أمس") = false →
        syncSplit27 dhikrId t
          = [("morning", dhikrId ++ "-m"), ("evening", dhikrId ++ "-e")]
          ∧ dhikrId ++ "-m" ≠ dhikrId ++ "-e")
      ∧ ((syncSplit27 dhikrId t).map Prod.fst = ["morning"]
          ∨ (syncSplit27 dhikrId t).map Prod.fst = ["evening"]
          ∨ (syncSplit27 dhikrId t).map Prod.fst = ["morning", "evening"])) := by
  refine ⟨?_, ?_, ?_, ?_, ?_⟩
  · intro t
    refine ⟨?_, ?_, ?_⟩
    · intro hm he
      simp [classify_morning_evening, hm, he]
    · intro he hm
      simp [classify_morning_evening, hm, he]
    · intro heq
      unfold classify_morning_evening
      simp only []
      cases hm : MORNING_KEYWORDS.any (fun kw => containsSub t kw) with
      | true => rw [← heq] at *; simp [hm]
      | false => rw [← heq] at *; simp [hm]
  · exact fun item mIdx eIdx => emitSplitItem_proj item mIdx eIdx
  · intro k h
    have hd := congrArg String.data h
    simp only [makeId] at hd
    have h2 := List.append_cancel_left hd
    simp at h2
  · intro t
    rcases classify_cases t with hc | hc | hc <;> rw [hc] <;> simp
  · intro dhikrId t
    refine ⟨?_, ?_, ?_, ?_⟩
    · intro hm
      simp [syncSplit27, hm]
    · intro hm he
      simp [syncSplit27, hm, he]
    · intro hm he
      refine ⟨by simp [syncSplit27, hm, he], ?_⟩
      intro h
      have hdata := congrArg String.data h
      simp [String.data_append] at hdata
    · unfold syncSplit27
      split
      · simp
      · split
        · simp
        · simp

/-- Witness for C2 (amended): the four classifier cases and the three sync
branches realised on concrete texts, including the both-marker sync input
that collapses to morning. -/
theorem C2_morning_evening_split_amended_witness :
    classify_morning_evening "أَصْبَحْنَا وَأَصْبَحَ" = ["morning"]
    ∧ classify_morning_evening "أَمْسَيْنَا" = ["evening"]
    ∧ classify_morning_evening "سبحان الله" = ["morning", "evening"]
    ∧ ((emitSplitItem ⟨1, "سبحان الله", Option.none⟩ 0 0).1.map
        (fun r => r.category)) = [some "morning", some "evening"]
    ∧ makeId 1 0 (some 'm') ≠ makeId 1 0 (some 'e')
    ∧ syncSplit27 "i" "إذا أصبح وإذا أمسى" = [("morning", "i")]
    ∧ syncSplit27 "i" "قال في المساء" = [("evening", "i")]
    ∧ syncSplit27 "i" "سبحان الله"
        = [("morning", "i-m"), ("evening", "i-e")] := by
  have h := C2_morning_evening_split_amended
  refine ⟨?_, ?_, ?_, ?_, h.2.2.1 0, ?_, ?_, ?_⟩
  · exact (h.1 "أَصْبَحْنَا وَأَصْبَحَ").1 (by decide) (by decide)
  · exact (h.1 "أَمْسَيْنَا").2.1 (by decide) (by decide)
  · exact (h.1 "سبحان الله").2.2 (by decide)
  · rw [(h.2.1 ⟨1, "سبحان الله", Option.none⟩ 0 0).1,
      (h.1 "سبحان الله").2.2 (by decide)]
    rfl
  · exact (h.2.2.2.2 "i" "إذا أصبح وإذا أمسى").1 (by decide)
  · exact (h.2.2.2.2 "i" "قال في المساء").2.1 (by decide) (by decide)
  · exact ((h.2.2.2.2 "i" "سبحان الله").2.2.1 (by decide) (by decide)).1

/-- C6: for every source category whose id is mapped, every raw item yields
exactly one output record (except id 1, which yields one or two per item),
with category and subcategory copied verbatim from the mapping entry,
`repeat.min = repeat.max = item.count` (default 1) and `orderIndex`
running 1..n; including the spec's concrete scenario for mapping entry 5. -/
theorem C6_reclassifier_totality_verbatim (catId : ℕ) (src : String)
    (cat hisn : Option String) (name : String) (items : List RawItem)
    (hmap : CATEGORY_MAP catId = some (src, cat, hisn)) :
    (catId ≠ 1 →
      (convertCategory catId name items).length = items.length
      ∧ (convertCategory catId name items).map (fun r => (r.category, r.hisnCategory))
          = items.map (fun _ => (cat, hisn))
      ∧ (convertCategory catId name items).map
          (fun r => (r.repeatMin, r.repeatMax))
          = items.map (fun it => (it.count.getD 1, it.count.getD 1))
      ∧ (convertCategory catId name items).map (fun r => r.orderIndex)
          = List.range' 1 items.length)
    ∧ (catId = 1 →
      (convertCategory catId name items).length
        = (items.map (fun it => (classify_morning_evening it.text).length)).sum
      ∧ ∀ it ∈ items, 1 ≤ (classify_morning_evening it.text).length
          ∧ (classify_morning_evening it.text).length ≤ 2)
    ∧ CATEGORY_MAP 5 = some ("hisn", some "hisn", some "home")
    ∧ (convertCategory 5 "n" [⟨1, "t1", Option.none⟩, ⟨2, "t2", Option.none⟩,
        ⟨3, "t3", Option.none⟩]).map
        (fun r => (r.category, r.hisnCategory, r.orderIndex))
        = [(some "hisn", some "home", 1), (some "hisn", some "home", 2),
           (some "hisn", some "home", 3)] := by
  have hconv : catId ≠ 1 → convertCategory catId name items
      = (List.enumFrom 0 items).map
        (fun p => convert_item catId name p.2 p.1 cat hisn src) := by
    intro h1
    unfold convertCategory
    rw [hmap]
    simp only []
    rw [if_neg h1]
    rfl
  refine ⟨?_, ?_, rfl, by decide⟩
  · intro h1
    rw [hconv h1]
    refine ⟨by simp, ?_, ?_, ?_⟩
    · exact convertLoop_proj_cats catId name cat hisn src items 0
    · exact convertLoop_proj_repeat catId name cat hisn src items 0
    · exact convertLoop_proj_order catId name cat hisn src items 0
  · intro h1
    subst h1
    have hconv1 : convertCategory 1 name items = processCat1 items 0 0 := by
      unfold convertCategory
      rw [hmap]
      simp
    rw [hconv1]
    refine ⟨processCat1_length items 0 0, ?_⟩
    intro it _
    rcases classify_cases it.text with hc | hc | hc <;> rw [hc] <;> simp

/-- Witness for C6: the mapped non-split category 2 ("daily"/"sleep") on two
concrete items, and the split category 1 on one item; hypotheses discharged
by computation. -/
theorem C6_reclassifier_totality_verbatim_witness :
    ((convertCategory 2 "n" [⟨1, "t1", some 3⟩, ⟨2, "t2", Option.none⟩]).map
      (fun r => (r.category, r.hisnCategory))
      = [(some "sleep", Option.none), (some "sleep", Option.none)])
    ∧ ((convertCategory 2 "n" [⟨1, "t1", some 3⟩, ⟨2, "t2", Option.none⟩]).map
      (fun r => r.orderIndex) = [1, 2])
    ∧ (convertCategory 1 "n" [⟨1, "سبحان الله", Option.none⟩]).length = 2 := by
  have h2 := C6_reclassifier_totality_verbatim 2 "daily" (some "sleep") Option.none
    "n" [⟨1, "t1", some 3⟩, ⟨2, "t2", Option.none⟩] rfl
  have h1 := C6_reclassifier_totality_verbatim 1 "daily" Option.none Option.none
    "n" [⟨1, "سبحان الله", Option.none⟩] rfl
  refine ⟨(h2.1 (by decide)).2.1, (h2.1 (by decide)).2.2.2, ?_⟩
  rw [(h1.2.1 rfl).1]
  decide

/-! ### C9: orderIndex uniqueness and contiguity -/

/-- Number of split items classified into the morning branch. -/
def morningCount (items : List RawItem) : ℕ :=
  (items.filter (fun it =>
    decide ("morning" ∈ classify_morning_evening it.text))).length

/-- Number of split items classified into the evening branch. -/
def eveningCount (items : List RawItem) : ℕ :=
  (items.filter (fun it =>
    decide ("evening" ∈ classify_morning_evening it.text))).length

theorem processCat1_morning_order :
    ∀ (items : List RawItem) (mIdx eIdx : ℕ),
    ((processCat1 items mIdx eIdx).filter
        (fun r => decide (r.category = some "morning"))).map (fun r => r.orderIndex)
      = List.range' (mIdx + 1) (morningCount items)
  | [], _, _ => rfl
  | item :: items, mIdx, eIdx => by
      rcases classify_cases item.text with hc | hc | hc <;>
        simp only [processCat1, List.filter_append, List.map_append,
          morningCount, List.filter_cons] <;>
        simp [emitSplitItem, hc, convert_item, List.range'_succ,
          processCat1_morning_order items, morningCount]

theorem processCat1_evening_order :
    ∀ (items : List RawItem) (mIdx eIdx : ℕ),
    ((processCat1 items mIdx eIdx).filter
        (fun r => decide (r.category = some "evening"))).map (fun r => r.orderIndex)
      = List.range' (eIdx + 1) (eveningCount items)
  | [], _, _ => rfl
  | item :: items, mIdx, eIdx => by
      rcases classify_cases item.text with hc | hc | hc <;>
        simp only [processCat1, List.filter_append, List.map_append,
          eveningCount, List.filter_cons] <;>
        simp [emitSplitItem, hc, convert_item, List.range'_succ,
          processCat1_evening_order items, eveningCount]

/-! ### smart_deduplicate.py: duplicate reconciliation -/

/-- A record as smart_deduplicate.py reads it (only the consulted fields). -/
structure DItem where
  title : String
  text : String
  category : String
  orderIndex : ℤ
deriving DecidableEq, Inhabited

/-- The fixed `essential_keywords` list. -/
def essential_keywords : List String :=
  ["آية الكرسي", "قُلْ هُوَ اللَّهُ أَحَدٌ", "قُلْ أَعُوذُ بِرَبِّ الْفَلَقِ",
   "قُلْ أَعُوذُ بِرَبِّ النَّاسِ", "سيد الاستغفار",
   "أَصْبَحْنَا وَأَصْبَحَ الْمُلْكُ", "أَمْسَيْنَا وَأَمْسَى الْمُلْكُ"]

/-- `is_essential(item)`: some keyword occurs in the title or the text. -/
def is_essential (it : DItem) : Bool :=
  essential_keywords.any (fun kw => containsSub it.title kw || containsSub it.text kw)

/-- `text_key = item['text'][:100]`. -/
def textKey (it : DItem) : List Char := it.text.data.take 100

/-- `text_groups.setdefault(...).append(item)`: append `x` to its key's
group, or open a new group at the end (Python dicts preserve insertion
order). -/
def insertGroup : List (List Char × List DItem) → DItem → List (List Char × List DItem)
  | [], x => [(textKey x, [x])]
  | (k, ys) :: rest, x =>
      if k = textKey x then (k, ys ++ [x]) :: rest
      else (k, ys) :: insertGroup rest x

/-- The grouping loop of smart_deduplicate.py lines 36–41. -/
def groupsOf (l : List DItem) : List (List Char × List DItem) :=
  l.foldl insertGroup []

/-- Per-group policy (lines 47–66): singletons pass; a multi-group is kept
whole when `is_essential(items[0])`, else collapses to the first
morning-tagged member, or failing that to `items[0]`. -/
def processGroup : List DItem → List DItem
  | [] => []
  | [x] => [x]
  | x :: xs =>
      if is_essential x then x :: xs
      else
        match (x :: xs).find? (fun i => decide (i.category = "morning")) with
        | some m => [m]
        | Option.none => [x]

/-- Python's string ordering: lexicographic comparison of code points. -/
def charListLt : List Char → List Char → Bool
  | [], [] => false
  | [], _ :: _ => true
  | _ :: _, [] => false
  | a :: as, b :: bs =>
      if a.toNat < b.toNat then true
      else if b.toNat < a.toNat then false
      else charListLt as bs

/-- The sort key `(category, orderIndex)` (line 69), as a total preorder;
`insertionSort` with it is stable, like Python's `list.sort`. -/
def recLE (a b : DItem) : Prop :=
  charListLt a.category.data b.category.data = true
  ∨ (a.category = b.category ∧ a.orderIndex ≤ b.orderIndex)

instance : DecidableRel recLE := fun a b => by
  unfold recLE; infer_instance

/-- `smart_deduplicate` on the in-memory collection: group, apply the
per-group policy in group order, and re-sort by `(category, orderIndex)`. -/
def smart_deduplicate (l : List DItem) : List DItem :=
  List.insertionSort recLE (((groupsOf l).map (fun p => processGroup p.2)).flatten)

theorem insertGroup_notmem : ∀ (gs : List (List Char × List DItem)) (x : DItem),
    textKey x ∉ gs.map Prod.fst →
    insertGroup gs x = gs ++ [(textKey x, [x])]
  | [], x, _ => rfl
  | (k, ys) :: rest, x, h => by
      have hk : k ≠ textKey x := fun he => h (by simp [he])
      simp only [insertGroup]
      rw [if_neg hk, insertGroup_notmem rest x (fun hm => h (by simp [hm]))]
      simp

theorem insertGroup_mem : ∀ (gs₁ : List (List Char × List DItem)) (ys : List DItem)
    (gs₂ : List (List Char × List DItem)) (x : DItem),
    (∀ p ∈ gs₁, p.1 ≠ textKey x) →
    insertGroup (gs₁ ++ (textKey x, ys) :: gs₂) x
      = gs₁ ++ (textKey x, ys ++ [x]) :: gs₂
  | [], ys, gs₂, x, _ => by
      simp only [List.nil_append, insertGroup]
      simp
  | (k, zs) :: gs₁, ys, gs₂, x, h => by
      have hk : k ≠ textKey x := h (k, zs) (List.mem_cons_self _ _)
      simp only [List.cons_append, insertGroup]
      rw [if_neg hk]
      exact congrArg _ (insertGroup_mem gs₁ ys gs₂ x
        (fun p hp => h p (List.mem_cons_of_mem _ hp)))

/-- The state invariant of the grouping fold: keys are distinct, each group
is exactly the ordered filter of the processed prefix by its key, and every
processed record's key is present. -/
def GroupsInv (l : List DItem) (gs : List (List Char × List DItem)) : Prop :=
  (gs.map Prod.fst).Nodup
  ∧ (∀ p ∈ gs, p.2 = l.filter (fun y => decide (textKey y = p.1)))
  ∧ (∀ x ∈ l, textKey x ∈ gs.map Prod.fst)

theorem groupsInv_insert {l : List DItem} {gs : List (List Char × List DItem)}
    (x : DItem) (h : GroupsInv l gs) : GroupsInv (l ++ [x]) (insertGroup gs x) := by
  obtain ⟨hnd, hfil, htot⟩ := h
  by_cases hmem : textKey x ∈ gs.map Prod.fst
  · obtain ⟨p, hp, hpk⟩ := List.mem_map.mp hmem
    obtain ⟨gs₁, gs₂, rfl⟩ := List.append_of_mem hp
    obtain ⟨pk, pys⟩ := p
    simp only at hpk
    subst hpk
    rw [List.map_append, List.map_cons] at hnd
    have hnd₁ := (List.nodup_append.mp hnd).1
    have hnd₂ := (List.nodup_append.mp hnd).2.1
    have hdisj := (List.nodup_append.mp hnd).2.2
    have h₁ : ∀ p ∈ gs₁, p.1 ≠ textKey x := by
      intro q hq he
      have hq1 : q.1 ∈ gs₁.map Prod.fst := List.mem_map_of_mem Prod.fst hq
      rw [he] at hq1
      exact hdisj hq1 (List.mem_cons_self _ _)
    have h₂ : ∀ p ∈ gs₂, p.1 ≠ textKey x := by
      intro q hq he
      have hq1 : q.1 ∈ gs₂.map Prod.fst := List.mem_map_of_mem Prod.fst hq
      rw [he] at hq1
      exact (List.nodup_cons.mp hnd₂).1 hq1
    rw [insertGroup_mem gs₁ pys gs₂ x h₁]
    refine ⟨?_, ?_, ?_⟩
    · simpa [List.map_append] using hnd
    · intro q hq
      rcases List.mem_append.mp hq with hq | hq
      · rw [List.filter_append,
          ← hfil q (List.mem_append_left _ hq)]
        have hne : ¬ (textKey x = q.1) := fun he => h₁ q hq he.symm
        simp [hne]
      · rcases List.mem_cons.mp hq with rfl | hq
        · rw [List.filter_append,
            ← hfil (textKey x, pys)
              (List.mem_append_right _ (List.mem_cons_self _ _))]
          simp
        · rw [List.filter_append,
            ← hfil q (List.mem_append_right _ (List.mem_cons_of_mem _ hq))]
          have hne : ¬ (textKey x = q.1) := fun he => h₂ q hq he.symm
          simp [hne]
    · intro y hy
      rcases List.mem_append.mp hy with hy | hy
      · have := htot y hy
        simpa [List.map_append] using (by simpa [List.map_append] using this)
      · rcases List.mem_singleton.mp hy with rfl
        simp [List.map_append]
  · rw [insertGroup_notmem gs x hmem]
    refine ⟨?_, ?_, ?_⟩
    · rw [List.map_append]
      simp only [List.map_cons, List.map_nil]
      exact List.Nodup.append hnd (by simp)
        (by simpa [List.disjoint_singleton] using hmem)
    · intro q hq
      rcases List.mem_append.mp hq with hq | hq
      · rw [List.filter_append, ← hfil q hq]
        have hne : ¬ (textKey x = q.1) := by
          intro he
          have hq1 : q.1 ∈ gs.map Prod.fst := List.mem_map_of_mem Prod.fst hq
          rw [← he] at hq1
          exact hmem hq1
        simp [hne]
      · rcases List.mem_singleton.mp hq with rfl
        rw [List.filter_append]
        have hnil : l.filter (fun y => decide (textKey y = textKey x)) = [] := by
          rw [List.filter_eq_nil_iff]
          intro y hy hk
          exact hmem ((by simpa using hk) ▸ htot y hy)
        simp [hnil]
    · intro y hy
      rcases List.mem_append.mp hy with hy | hy
      · have := htot y hy
        simp only [List.map_append, List.map_cons, List.map_nil]
        exact List.mem_append_left _ this
      · rcases List.mem_singleton.mp hy with rfl
        simp [List.map_append]

theorem groupsOf_snoc (l : List DItem) (x : DItem) :
    groupsOf (l ++ [x]) = insertGroup (groupsOf l) x := by
  simp [groupsOf, List.foldl_append]

theorem groupsOf_inv (l : List DItem) : GroupsInv l (groupsOf l) := by
  induction l using List.reverseRecOn with
  | nil =>
      refine ⟨by simp [groupsOf], ?_, ?_⟩
      · intro p hp; simp [groupsOf] at hp
      · intro x hx; simp at hx
  | append_singleton l x ih =>
      rw [groupsOf_snoc]
      exact groupsInv_insert x ih

theorem processGroup_subset : ∀ (g : List DItem) (y : DItem),
    y ∈ processGroup g → y ∈ g
  | [], y, h => by simp [processGroup] at h
  | [x], y, h => by simpa [processGroup] using h
  | x :: x' :: xs, y, h => by
      simp only [processGroup] at h
      by_cases he : is_essential x = true
      · rw [if_pos he] at h
        exact h
      · rw [if_neg he] at h
        cases hf : (x :: x' :: xs).find? (fun i => decide (i.category = "morning")) with
        | none =>
            rw [hf] at h
            rcases List.mem_singleton.mp h with rfl
            exact List.mem_cons_self _ _
        | some m =>
            rw [hf] at h
            rcases List.mem_singleton.mp h with rfl
            exact List.mem_of_find?_eq_some hf

/-- The multi-member branch of `processGroup`, in closed form. -/
theorem processGroup_multi (x y : DItem) (xs : List DItem) :
    processGroup (x :: y :: xs)
      = if is_essential x then x :: y :: xs
        else [((x :: y :: xs).find?
            (fun i => decide (i.category = "morning"))).getD x] := by
  simp only [processGroup]
  split
  · rfl
  · cases hf : (x :: y :: xs).find? (fun i => decide (i.category = "morning")) <;>
      simp [hf]

theorem flatten_filter (p : DItem → Bool) :
    ∀ L : List (List DItem),
    (L.flatten).filter p = (L.map (fun g => g.filter p)).flatten
  | [] => rfl
  | g :: L => by simp [List.filter_append, flatten_filter p L]

/-- With distinct keys and key-homogeneous groups, filtering the flattened
processed groups by key `k` yields exactly the processed group of key `k`. -/
theorem flatten_filter_single {k : List Char} :
    ∀ (gs : List (List Char × List DItem)),
    (gs.map Prod.fst).Nodup →
    (∀ p ∈ gs, ∀ y ∈ processGroup p.2, textKey y = p.1) →
    ∀ p ∈ gs, p.1 = k →
    ((gs.map (fun q => processGroup q.2)).flatten).filter
      (fun r => decide (textKey r = k)) = processGroup p.2
  | [], _, _, p, hp, _ => absurd hp (by simp)
  | q :: gs, hnd, hkeys, p, hp, hpk => by
      simp only [List.map_cons, List.flatten_cons, List.filter_append]
      rcases List.mem_cons.mp hp with rfl | hp'
      · have hfe : (processGroup p.2).filter (fun r => decide (textKey r = k))
            = processGroup p.2 :=
          List.filter_eq_self.mpr fun y hy => by
            simp [hkeys p (List.mem_cons_self _ _) y hy, hpk]
        have hrest : ((gs.map (fun q => processGroup q.2)).flatten).filter
            (fun r => decide (textKey r = k)) = [] := by
          rw [List.filter_eq_nil_iff]
          intro y hy
          obtain ⟨gl, hgl, hygl⟩ := List.mem_flatten.mp hy
          obtain ⟨q', hq', rfl⟩ := List.mem_map.mp hgl
          have hk' := hkeys q' (List.mem_cons_of_mem _ hq') y hygl
          have hne : q'.1 ≠ k := by
            intro he
            refine (List.nodup_cons.mp hnd).1 ?_
            rw [hpk, ← he]
            exact List.mem_map_of_mem Prod.fst hq'
          simp [hk', hne]
        rw [hfe, hrest, List.append_nil]
      · have hq1 : q.1 ≠ k := by
          intro he
          have hmem : k ∈ gs.map Prod.fst := by
            rw [← hpk]
            exact List.mem_map_of_mem Prod.fst hp'
          exact (List.nodup_cons.mp hnd).1 (he ▸ hmem)
        have hhead : (processGroup q.2).filter (fun r => decide (textKey r = k))
            = [] := by
          rw [List.filter_eq_nil_iff]
          intro y hy
          simp [hkeys q (List.mem_cons_self _ _) y hy, hq1]
        rw [hhead, List.nil_append]
        exact flatten_filter_single gs (List.nodup_cons.mp hnd).2
          (fun p' hp'' => hkeys p' (List.mem_cons_of_mem _ hp'')) p hp' hpk

theorem nodup_split_keys {gs₁ gs₂ : List (List Char × List DItem)}
    {k : List Char} {ys : List DItem}
    (hnd : ((gs₁ ++ (k, ys) :: gs₂).map Prod.fst).Nodup) :
    ∀ p ∈ gs₁, p.1 ≠ k := by
  intro q hq he
  rw [List.map_append, List.map_cons] at hnd
  have hq1 : q.1 ∈ gs₁.map Prod.fst := List.mem_map_of_mem Prod.fst hq
  rw [he] at hq1
  exact (List.nodup_append.mp hnd).2.2 hq1 (List.mem_cons_self _ _)

/-- Inserting a record appends it to the flattened groups, up to order. -/
theorem insert_join_perm {gs : List (List Char × List DItem)} (x : DItem)
    (hnd : (gs.map Prod.fst).Nodup) :
    (((insertGroup gs x).map Prod.snd).flatten).Perm
      (((gs.map Prod.snd).flatten) ++ [x]) := by
  by_cases hmem : textKey x ∈ gs.map Prod.fst
  · obtain ⟨p, hp, hpk⟩ := List.mem_map.mp hmem
    obtain ⟨gs₁, gs₂, rfl⟩ := List.append_of_mem hp
    obtain ⟨pk, pys⟩ := p
    simp only at hpk
    subst hpk
    rw [insertGroup_mem gs₁ pys gs₂ x (nodup_split_keys hnd)]
    simp only [List.map_append, List.map_cons, List.flatten_append,
      List.flatten_cons, List.append_assoc]
    exact List.Perm.append_left _ (List.Perm.append_left _ List.perm_append_comm)
  · rw [insertGroup_notmem gs x hmem]
    have heq : (((gs ++ [(textKey x, [x])]).map Prod.snd).flatten)
        = ((gs.map Prod.snd).flatten) ++ [x] := by
      simp
    rw [heq]

theorem groupsOf_join_perm (l : List DItem) :
    (((groupsOf l).map Prod.snd).flatten).Perm l := by
  induction l using List.reverseRecOn with
  | nil => simp [groupsOf]
  | append_singleton l x ih =>
      rw [groupsOf_snoc]
      exact (insert_join_perm x (groupsOf_inv l).1).trans (ih.append_right [x])

/-- Every record surviving reconciliation is one of the input records. -/
theorem smart_dedup_subset {l : List DItem} {y : DItem}
    (hy : y ∈ smart_deduplicate l) : y ∈ l := by
  have hperm := List.perm_insertionSort recLE
    (((groupsOf l).map (fun p => processGroup p.2)).flatten)
  have hy2 : y ∈ ((groupsOf l).map (fun p => processGroup p.2)).flatten :=
    hperm.mem_iff.mp hy
  obtain ⟨g, hg, hyg⟩ := List.mem_flatten.mp hy2
  obtain ⟨p, hp, rfl⟩ := List.mem_map.mp hg
  have hyp := processGroup_subset p.2 y hyg
  rw [(groupsOf_inv l).2.1 p hp] at hyp
  exact List.mem_of_mem_filter hyp

/-- Filtering the reconciled collection by a key occurring in the input
gives, up to order, the processed group of that key. -/
theorem dedup_filter_key (l : List DItem) (k : List Char)
    (hk : ∃ x ∈ l, textKey x = k) :
    ((smart_deduplicate l).filter (fun r => decide (textKey r = k))).Perm
      (processGroup (l.filter (fun y => decide (textKey y = k)))) := by
  obtain ⟨hnd, hfil, htot⟩ := groupsOf_inv l
  obtain ⟨x, hx, hxk⟩ := hk
  have hkmem : k ∈ (groupsOf l).map Prod.fst := hxk ▸ htot x hx
  obtain ⟨p, hp, hpk⟩ := List.mem_map.mp hkmem
  have hkeys : ∀ q ∈ groupsOf l, ∀ y ∈ processGroup q.2, textKey y = q.1 := by
    intro q hq y hy
    have hyq := processGroup_subset q.2 y hy
    rw [hfil q hq] at hyq
    simpa using List.of_mem_filter hyq
  have hsingle := flatten_filter_single (k := k) (groupsOf l) hnd hkeys p hp hpk
  have hperm := (List.perm_insertionSort recLE
    (((groupsOf l).map (fun q => processGroup q.2)).flatten)).filter
    (fun r => decide (textKey r = k))
  refine hperm.trans ?_
  rw [hsingle, hfil p hp, hpk]

/-! ### Claims C3, C8, C9 -/

/-- A multi-member processed group keeps two or more records only in the
essential branch, so its head is essential and the group passes whole. -/
theorem processGroup_two_essential : ∀ (g : List DItem),
    2 ≤ (processGroup g).length →
    processGroup g = g ∧ ∃ a, g.head? = some a ∧ is_essential a = true
  | [], h => by simp [processGroup] at h
  | [x], h => by simp [processGroup] at h
  | x :: y :: xs, h => by
      by_cases he : is_essential x = true
      · exact ⟨by rw [processGroup_multi, if_pos he], x, rfl, he⟩
      · rw [processGroup_multi, if_neg he] at h
        simp at h

/-- C3 counterexample: the code tests `is_essential(items[0])` only, not
"any member".  In the group of key `textKey ⟨عنوان, نص, morning, 2⟩` the
second member (titled `آية الكرسي`) is essential, yet it is dropped because
the first member is not. -/
theorem C3_essential_retention_counterexample :
    is_essential ⟨"آية الكرسي", "نص", "evening", 1⟩ = true
    ∧ textKey ⟨"آية الكرسي", "نص", "evening", 1⟩
        = textKey ⟨"عنوان", "نص", "morning", 2⟩
    ∧ (⟨"آية الكرسي", "نص", "evening", 1⟩ : DItem) ∉
        smart_deduplicate
          [⟨"عنوان", "نص", "morning", 2⟩, ⟨"آية الكرسي", "نص", "evening", 1⟩] := by
  decide

/-- C3 (amended): for a multi-member group (the ordered filter of the input
by a 100-character text key), the retention decision is made by the
essentialness of the group's FIRST member alone: if it is essential the
whole group survives (up to the final resort), otherwise exactly the first
morning-tagged member (or, failing that, the first member) survives. -/
theorem C3_essential_retention_amended (l : List DItem) (k : List Char)
    (x y : DItem) (xs : List DItem)
    (hg : l.filter (fun r => decide (textKey r = k)) = x :: y :: xs) :
    ((smart_deduplicate l).filter (fun r => decide (textKey r = k))).Perm
      (if is_essential x then x :: y :: xs
       else [((x :: y :: xs).find?
          (fun i => decide (i.category = "morning"))).getD x]) := by
  have hxfil : x ∈ l.filter (fun r => decide (textKey r = k)) := by
    rw [hg]
    exact List.mem_cons_self _ _
  have hxk : textKey x = k := by
    simpa using List.of_mem_filter hxfil
  have h := dedup_filter_key l k ⟨x, List.mem_of_mem_filter hxfil, hxk⟩
  rw [hg, processGroup_multi] at h
  exact h

/-- Witness for C3 (amended) on a concrete two-member non-essential group:
only the morning member survives. -/
theorem C3_essential_retention_amended_witness :
    ((smart_deduplicate
        [⟨"عنوان", "نص", "morning", 2⟩, ⟨"عنوان ب", "نص", "evening", 1⟩]).filter
        (fun r => decide (textKey r
          = textKey (⟨"عنوان", "نص", "morning", 2⟩ : DItem)))).Perm
      (if is_essential ⟨"عنوان", "نص", "morning", 2⟩ then
        (⟨"عنوان", "نص", "morning", 2⟩ : DItem) :: ⟨"عنوان ب", "نص", "evening", 1⟩ :: []
       else [(((⟨"عنوان", "نص", "morning", 2⟩ : DItem)
            :: ⟨"عنوان ب", "نص", "evening", 1⟩ :: []).find?
          (fun i => decide (i.category = "morning"))).getD
            ⟨"عنوان", "نص", "morning", 2⟩]) :=
  C3_essential_retention_amended
    [⟨"عنوان", "نص", "morning", 2⟩, ⟨"عنوان ب", "نص", "evening", 1⟩]
    (textKey (⟨"عنوان", "نص", "morning", 2⟩ : DItem))
    ⟨"عنوان", "نص", "morning", 2⟩ ⟨"عنوان ب", "نص", "evening", 1⟩ [] (by decide)

/-- C8 counterexample: deduplication is NOT idempotent.  An essential
morning record grouped with a non-essential evening record of the same text
key survives the first pass whole, but the resort puts the non-essential
evening record first, so the second pass collapses the group. -/
theorem C8_dedup_idempotent_counterexample :
    (smart_deduplicate
        [⟨"آية الكرسي", "نص", "morning", 2⟩, ⟨"عنوان", "نص", "evening", 1⟩]).length = 2
    ∧ (smart_deduplicate (smart_deduplicate
        [⟨"آية الكرسي", "نص", "morning", 2⟩, ⟨"عنوان", "نص", "evening", 1⟩])).length
        = 1 := by
  decide

/-- C8 (amended): when essentialness is uniform within every text-key group
(in particular when no group mixes an essential and a non-essential
record), deduplication is idempotent up to the order of records. -/
theorem C8_dedup_idempotent_amended (l : List DItem)
    (huni : ∀ x ∈ l, ∀ y ∈ l, textKey x = textKey y →
      is_essential x = is_essential y) :
    (smart_deduplicate (smart_deduplicate l)).Perm (smart_deduplicate l) := by
  have hgp : ∀ p ∈ groupsOf (smart_deduplicate l), processGroup p.2 = p.2 := by
    intro p hp
    obtain ⟨hnd, hfil, htot⟩ := groupsOf_inv (smart_deduplicate l)
    have hpfil := hfil p hp
    match hm : p.2 with
    | [] => rfl
    | [x] => rfl
    | x :: y :: xs =>
        have hfx : (smart_deduplicate l).filter
            (fun r => decide (textKey r = p.1)) = x :: y :: xs := by
          rw [← hpfil]
          exact hm
        have hxfil : x ∈ (smart_deduplicate l).filter
            (fun r => decide (textKey r = p.1)) := by
          rw [hfx]
          exact List.mem_cons_self _ _
        have hxl' : x ∈ smart_deduplicate l := List.mem_of_mem_filter hxfil
        have hxk : textKey x = p.1 := by
          simpa using List.of_mem_filter hxfil
        have hxl : x ∈ l := smart_dedup_subset hxl'
        have hperm := dedup_filter_key l p.1 ⟨x, hxl, hxk⟩
        have hlen2 : 2 ≤ (processGroup
            (l.filter (fun z => decide (textKey z = p.1)))).length := by
          rw [← hperm.length_eq, hfx]
          simp
        obtain ⟨_, a, hha, hae⟩ := processGroup_two_essential _ hlen2
        have hafil : a ∈ l.filter (fun z => decide (textKey z = p.1)) :=
          List.mem_of_mem_head? hha
        have hal : a ∈ l := List.mem_of_mem_filter hafil
        have hak : textKey a = p.1 := by
          simpa using List.of_mem_filter hafil
        have hxe : is_essential x = true := by
          rw [huni x hxl a hal (hxk.trans hak.symm)]
          exact hae
        rw [processGroup_multi, if_pos hxe]
  have hmap : (groupsOf (smart_deduplicate l)).map (fun p => processGroup p.2)
      = (groupsOf (smart_deduplicate l)).map Prod.snd :=
    List.map_congr_left hgp
  have h1 : (smart_deduplicate (smart_deduplicate l)).Perm
      (((groupsOf (smart_deduplicate l)).map (fun p => processGroup p.2)).flatten) :=
    List.perm_insertionSort recLE _
  rw [hmap] at h1
  exact h1.trans (groupsOf_join_perm (smart_deduplicate l))

/-- Witness for C8 (amended): two same-key non-essential records; both
passes agree up to order. -/
theorem C8_dedup_idempotent_amended_witness :
    (smart_deduplicate (smart_deduplicate
        [⟨"عنوان", "نص", "morning", 2⟩, ⟨"عنوان ج", "نص", "evening", 1⟩])).Perm
      (smart_deduplicate
        [⟨"عنوان", "نص", "morning", 2⟩, ⟨"عنوان ج", "نص", "evening", 1⟩]) :=
  C8_dedup_idempotent_amended
    [⟨"عنوان", "نص", "morning", 2⟩, ⟨"عنوان ج", "نص", "evening", 1⟩] (by decide)

/-- orderIndex is unique and contiguous from 1 within every category
partition of a record collection: the multiset of orderIndexes of each
partition is exactly 1..n. -/
def orderIndexContiguous (recs : List DhikrRec) : Prop :=
  ∀ c : Option String,
    ((recs.filter (fun r => decide (r.category = c))).map
        (fun r => r.orderIndex)).Perm
      (List.range' 1 (recs.filter (fun r => decide (r.category = c))).length)

/-- C9 counterexample: source category ids 4 and 5 both map to output
category "hisn", and the converter numbers each source category
independently from 1, so converting one item under each produces two "hisn"
records both carrying orderIndex 1 — not unique, not contiguous. -/
theorem C9_orderindex_counterexample :
    ((convertAll [(4, "n1", [⟨1, "t", Option.none⟩]),
        (5, "n2", [⟨1, "t", Option.none⟩])]).map
        (fun r => (r.category, r.orderIndex))
      = [(some "hisn", 1), (some "hisn", 1)])
    ∧ ¬ orderIndexContiguous
        (convertAll [(4, "t", [⟨1, "t", Option.none⟩]),
          (5, "t", [⟨1, "t", Option.none⟩])]) := by
  refine ⟨by decide, fun h => absurd (h (some "hisn")) (by decide)⟩

/-- C9 (amended): the contiguity that actually holds is per SOURCE
category: a mapped non-split source category's block carries orderIndex
1..n; the split category's morning and evening branches each carry
orderIndex 1..count of their branch; and deduplication only removes
records (it never renumbers), so after a merge of several source
categories into one output category, or after a removal, partition-wide
contiguity from 1 is not maintained. -/
theorem C9_orderindex_amended (catId : ℕ) (src : String)
    (cat hisn : Option String) (name : String) (items : List RawItem)
    (hmap : CATEGORY_MAP catId = some (src, cat, hisn)) (h1 : catId ≠ 1) :
    ((convertCategory catId name items).map (fun r => r.orderIndex)
        = List.range' 1 items.length)
    ∧ (∀ its : List RawItem,
        ((processCat1 its 0 0).filter
            (fun r => decide (r.category = some "morning"))).map
            (fun r => r.orderIndex)
          = List.range' 1 (morningCount its)
        ∧ ((processCat1 its 0 0).filter
            (fun r => decide (r.category = some "evening"))).map
            (fun r => r.orderIndex)
          = List.range' 1 (eveningCount its))
    ∧ (∀ (dl : List DItem) (y : DItem), y ∈ smart_deduplicate dl → y ∈ dl) := by
  refine ⟨?_, ?_, fun dl y hy => smart_dedup_subset hy⟩
  · have hconv : convertCategory catId name items
        = (List.enumFrom 0 items).map
          (fun p => convert_item catId name p.2 p.1 cat hisn src) := by
      unfold convertCategory
      rw [hmap]
      simp only []
      rw [if_neg h1]
      rfl
    rw [hconv]
    exact convertLoop_proj_order catId name cat hisn src items 0
  · intro its
    exact ⟨processCat1_morning_order its 0 0, processCat1_evening_order its 0 0⟩

/-- Witness for C9 (amended): the non-split category 2 on two items gets
orderIndex 1, 2. -/
theorem C9_orderindex_amended_witness :
    (convertCategory 2 "n" [⟨1, "t1", Option.none⟩, ⟨2, "t2", Option.none⟩]).map
      (fun r => r.orderIndex)
      = List.range' 1 [⟨1, "t1", Option.none⟩, (⟨2, "t2", Option.none⟩ : RawItem)].length :=
  (C9_orderindex_amended 2 "daily" (some "sleep") Option.none "n"
    [⟨1, "t1", Option.none⟩, ⟨2, "t2", Option.none⟩] rfl (by decide)).1


end Athkari
